import Mathlib

/-!
Verification of the chinesebuffet data-pipeline scripts.

Shallow embedding of the Python sources under scripts/ as Lean functions:
strings are lists of characters, network responses are explicit oracle
arguments, and the mutable mapping files are functions from keys to
optional entries.  Each section names the Python source it embeds.
-/

set_option maxHeartbeats 1000000

/-- Strings of the Python sources, modelled as lists of characters. -/
abbrev Str := List Char

/-! ### Whitespace and lowercase, modelling Python str methods on ASCII -/

/-- Whitespace test modelling the ASCII part of Python str.isspace, the
set used by split() and strip() with no arguments. -/
def pyIsWs (c : Char) : Bool :=
  c = ' ' || c = '\t' || c = '\n' || c = '\r' || c = '\x0b' || c = '\x0c'

/-- Lowercasing of one character, modelling Python str.lower on the ASCII
range: the letters A through Z map 32 code points up, all else is fixed. -/
def pyLowerChar (c : Char) : Char :=
  if 65 ≤ c.toNat ∧ c.toNat ≤ 90 then Char.ofNat (c.toNat + 32) else c

/-- Lowercasing a string, modelling Python str.lower on ASCII. -/
def pyLower (s : Str) : Str := s.map pyLowerChar

theorem toNat_ofNat_lower {n : Nat} (h1 : 97 ≤ n) (h2 : n ≤ 122) :
    (Char.ofNat n).toNat = n := by
  interval_cases n <;> decide

theorem pyLowerChar_space : pyLowerChar ' ' = ' ' := by decide

theorem pyLowerChar_idem (c : Char) :
    pyLowerChar (pyLowerChar c) = pyLowerChar c := by
  unfold pyLowerChar
  by_cases h : 65 ≤ c.toNat ∧ c.toNat ≤ 90
  · rw [if_pos h]
    have ht : (Char.ofNat (c.toNat + 32)).toNat = c.toNat + 32 :=
      toNat_ofNat_lower (by omega) (by omega)
    rw [if_neg]
    rw [ht]
    omega
  · rw [if_neg h, if_neg h]

/-- A string is lowered when lowercasing fixes every character. -/
def Lowered (s : Str) : Prop := ∀ c ∈ s, pyLowerChar c = c

theorem lowered_pyLower (s : Str) : Lowered (pyLower s) := by
  intro c hc
  rcases List.mem_map.mp hc with ⟨d, _, rfl⟩
  exact pyLowerChar_idem d

theorem pyLower_eq_self_of_lowered {s : Str} (h : Lowered s) : pyLower s = s := by
  induction s with
  | nil => rfl
  | cons c t ih =>
    have hc : pyLowerChar c = c := h c (List.mem_cons_self _ _)
    have ht : Lowered t := fun d hd => h d (List.mem_cons_of_mem _ hd)
    simp [pyLower] at ih ⊢
    exact ⟨hc, ih ht⟩

/-! ### Prefix testing and Python str.replace -/

/-- Boolean prefix test on lists of characters. -/
def isPrefixL : Str → Str → Bool
  | [], _ => true
  | _ :: _, [] => false
  | a :: t, b :: s => a = b && isPrefixL t s

theorem isPrefixL_iff {t s : Str} : isPrefixL t s = true ↔ ∃ v, s = t ++ v := by
  induction t generalizing s with
  | nil => simp [isPrefixL]
  | cons a t ih =>
    cases s with
    | nil =>
      simp [isPrefixL]
    | cons b s =>
      simp only [isPrefixL, Bool.and_eq_true, decide_eq_true_eq, ih]
      constructor
      · rintro ⟨rfl, v, rfl⟩
        exact ⟨v, rfl⟩
      · rintro ⟨v, hv⟩
        injection hv with h1 h2
        exact ⟨h1.symm, v, h2⟩

/-- Python s.replace(t, r) for nonempty t: replace each non-overlapping
occurrence of t, scanning left to right.  For empty t the Python call
inserts r at every position; the scripts only call it with nonempty t,
and this model returns s unchanged in that case. -/
def pyReplace (t r s : Str) : Str :=
  match s with
  | [] => []
  | c :: rest =>
    if h : t ≠ [] ∧ isPrefixL t (c :: rest) = true then
      r ++ pyReplace t r ((c :: rest).drop t.length)
    else
      c :: pyReplace t r rest
termination_by s.length
decreasing_by
  · simp only [List.length_drop, List.length_cons]
    have : t.length ≠ 0 := fun hz => h.1 (List.length_eq_zero.mp hz)
    omega
  · simp

/-- Occurrence of t as a contiguous substring of s. -/
def Occurs (t s : Str) : Prop := ∃ a b, s = a ++ t ++ b

theorem occurs_nil_left (s : Str) : Occurs [] s := ⟨[], s, by simp⟩

theorem occurs_of_isPrefixL {t s : Str} (h : isPrefixL t s = true) : Occurs t s := by
  rcases isPrefixL_iff.mp h with ⟨v, rfl⟩
  exact ⟨[], v, by simp⟩

theorem occurs_cons_iff {t : Str} {c : Char} {l : Str} :
    Occurs t (c :: l) ↔ isPrefixL t (c :: l) = true ∨ Occurs t l := by
  constructor
  · rintro ⟨a, b, hab⟩
    cases a with
    | nil =>
      left
      exact isPrefixL_iff.mpr ⟨b, by simpa using hab⟩
    | cons a0 a' =>
      right
      injection hab with h1 h2
      exact ⟨a', b, h2⟩
  · rintro (h | ⟨a, b, hab⟩)
    · exact occurs_of_isPrefixL h
    · exact ⟨c :: a, b, by simp [hab]⟩

theorem occurs_cons_of_occurs {t : Str} {c : Char} {l : Str} (h : Occurs t l) :
    Occurs t (c :: l) := occurs_cons_iff.mpr (Or.inr h)

theorem occurs_of_occurs_drop {t s : Str} {n : Nat} (h : Occurs t (s.drop n)) :
    Occurs t s := by
  rcases h with ⟨a, b, hab⟩
  refine ⟨s.take n ++ a, b, ?_⟩
  conv_lhs => rw [← List.take_append_drop n s]
  rw [hab]
  simp

theorem not_occurs_nil {t : Str} (h : t ≠ []) : ¬ Occurs t [] := by
  rintro ⟨a, b, hab⟩
  have := congrArg List.length hab
  simp at this
  exact h (List.length_eq_zero.mp (by omega))

theorem pyReplace_nil (t r : Str) : pyReplace t r [] = [] := by
  rw [pyReplace]

theorem pyReplace_of_not_occurs {t r : Str} :
    ∀ {s : Str}, ¬ Occurs t s → pyReplace t r s = s := by
  intro s
  induction s with
  | nil => intro _; rw [pyReplace_nil]
  | cons c rest ih =>
    intro h
    rw [pyReplace]
    rw [dif_neg]
    · rw [ih (fun ho => h (occurs_cons_of_occurs ho))]
    · rintro ⟨ht, hp⟩
      exact h (occurs_of_isPrefixL hp)

theorem isPrefixL_cons_iff {a b : Char} {t s : Str} :
    isPrefixL (a :: t) (b :: s) = true ↔ a = b ∧ isPrefixL t s = true := by
  simp [isPrefixL]

theorem isPrefixL_pyReplace {t : Str} :
    ∀ (s u : Str), (' ' ∉ u) → isPrefixL u (pyReplace t [' '] s) = true →
      isPrefixL u s = true := by
  intro s
  induction s with
  | nil =>
    intro u hu hp
    rwa [pyReplace_nil] at hp
  | cons c rest ih =>
    intro u hu hp
    rw [pyReplace] at hp
    by_cases hb : t ≠ [] ∧ isPrefixL t (c :: rest) = true
    · rw [dif_pos hb] at hp
      cases u with
      | nil => rfl
      | cons a u' =>
        rcases isPrefixL_cons_iff.mp hp with ⟨rfl, _⟩
        exact absurd (List.mem_cons_self _ _) hu
    · rw [dif_neg hb] at hp
      cases u with
      | nil => rfl
      | cons a u' =>
        rcases isPrefixL_cons_iff.mp hp with ⟨rfl, hp'⟩
        have hu' : ' ' ∉ u' := fun hm => hu (List.mem_cons_of_mem _ hm)
        exact isPrefixL_cons_iff.mpr ⟨rfl, ih u' hu' hp'⟩

theorem not_occurs_pyReplace_self_aux {t : Str} (ht : t ≠ []) (hsp : ' ' ∉ t) :
    ∀ (n : Nat) (s : Str), s.length ≤ n → ¬ Occurs t (pyReplace t [' '] s) := by
  intro n
  induction n with
  | zero =>
    intro s hs
    have : s = [] := List.length_eq_zero.mp (by omega)
    subst this
    rw [pyReplace_nil]
    exact not_occurs_nil ht
  | succ n ih =>
    intro s hs
    cases s with
    | nil =>
      rw [pyReplace_nil]
      exact not_occurs_nil ht
    | cons c rest =>
      rw [pyReplace]
      by_cases hb : t ≠ [] ∧ isPrefixL t (c :: rest) = true
      · rw [dif_pos hb]
        intro ho
        simp only [List.singleton_append] at ho
        rcases occurs_cons_iff.mp ho with hpre | htl
        · cases t with
          | nil => exact ht rfl
          | cons a t' =>
            rcases isPrefixL_cons_iff.mp hpre with ⟨rfl, _⟩
            exact hsp (List.mem_cons_self _ _)
        · have hlen : ((c :: rest).drop t.length).length ≤ n := by
            simp only [List.length_drop, List.length_cons]
            have : t.length ≠ 0 := fun hz => ht (List.length_eq_zero.mp hz)
            simp only [List.length_cons] at hs
            omega
          exact ih _ hlen htl
      · rw [dif_neg hb]
        intro ho
        rcases occurs_cons_iff.mp ho with hpre | htl
        · cases t with
          | nil => exact ht rfl
          | cons a t' =>
            rcases isPrefixL_cons_iff.mp hpre with ⟨rfl, hp'⟩
            have hsp' : ' ' ∉ t' := fun hm => hsp (List.mem_cons_of_mem _ hm)
            have : isPrefixL t' rest = true := isPrefixL_pyReplace rest t' hsp' hp'
            exact hb ⟨ht, isPrefixL_cons_iff.mpr ⟨rfl, this⟩⟩
        · have hlen : rest.length ≤ n := by
            simp only [List.length_cons] at hs
            omega
          exact ih _ hlen htl

theorem not_occurs_pyReplace_self {t : Str} (ht : t ≠ []) (hsp : ' ' ∉ t)
    (s : Str) : ¬ Occurs t (pyReplace t [' '] s) :=
  not_occurs_pyReplace_self_aux ht hsp s.length s (Nat.le_refl _)

theorem not_occurs_pyReplace_other_aux {u t : Str} (hu : ' ' ∉ u) :
    ∀ (n : Nat) (s : Str), s.length ≤ n → ¬ Occurs u s →
      ¬ Occurs u (pyReplace t [' '] s) := by
  intro n
  induction n with
  | zero =>
    intro s hs h
    have : s = [] := List.length_eq_zero.mp (by omega)
    subst this
    rwa [pyReplace_nil]
  | succ n ih =>
    intro s hs h
    cases u with
    | nil => exact absurd (occurs_nil_left s) h
    | cons a u' =>
      cases s with
      | nil => rwa [pyReplace_nil]
      | cons c rest =>
        rw [pyReplace]
        by_cases hb : t ≠ [] ∧ isPrefixL t (c :: rest) = true
        · rw [dif_pos hb]
          intro ho
          simp only [List.singleton_append] at ho
          rcases occurs_cons_iff.mp ho with hpre | htl
          · rcases isPrefixL_cons_iff.mp hpre with ⟨ha, _⟩
            exact hu (ha ▸ List.mem_cons_self _ _)
          · have hlen : ((c :: rest).drop t.length).length ≤ n := by
              simp only [List.length_drop, List.length_cons]
              have : t.length ≠ 0 := fun hz => hb.1 (List.length_eq_zero.mp hz)
              simp only [List.length_cons] at hs
              omega
            have hno : ¬ Occurs (a :: u') ((c :: rest).drop t.length) :=
              fun hd => h (occurs_of_occurs_drop hd)
            exact ih _ hlen hno htl
        · rw [dif_neg hb]
          intro ho
          rcases occurs_cons_iff.mp ho with hpre | htl
          · rcases isPrefixL_cons_iff.mp hpre with ⟨rfl, hp'⟩
            have hu' : ' ' ∉ u' := fun hm => hu (List.mem_cons_of_mem _ hm)
            have : isPrefixL u' rest = true := isPrefixL_pyReplace rest u' hu' hp'
            exact h (occurs_of_isPrefixL (isPrefixL_cons_iff.mpr ⟨rfl, this⟩))
          · have hlen : rest.length ≤ n := by
              simp only [List.length_cons] at hs
              omega
            exact ih _ hlen (fun hr => h (occurs_cons_of_occurs hr)) htl

theorem not_occurs_pyReplace_other {u t : Str} (hu : ' ' ∉ u) {s : Str}
    (h : ¬ Occurs u s) : ¬ Occurs u (pyReplace t [' '] s) :=
  not_occurs_pyReplace_other_aux hu s.length s (Nat.le_refl _) h

theorem mem_pyReplace_aux {t : Str} :
    ∀ (n : Nat) (s : Str), s.length ≤ n → ∀ c ∈ pyReplace t [' '] s,
      c = ' ' ∨ c ∈ s := by
  intro n
  induction n with
  | zero =>
    intro s hs c hc
    have : s = [] := List.length_eq_zero.mp (by omega)
    subst this
    rw [pyReplace_nil] at hc
    simp at hc
  | succ n ih =>
    intro s hs c hc
    cases s with
    | nil =>
      rw [pyReplace_nil] at hc
      simp at hc
    | cons d rest =>
      rw [pyReplace] at hc
      by_cases hb : t ≠ [] ∧ isPrefixL t (d :: rest) = true
      · rw [dif_pos hb] at hc
        simp only [List.singleton_append, List.mem_cons] at hc
        rcases hc with rfl | hc
        · exact Or.inl rfl
        · have hlen : ((d :: rest).drop t.length).length ≤ n := by
            simp only [List.length_drop, List.length_cons]
            have : t.length ≠ 0 := fun hz => hb.1 (List.length_eq_zero.mp hz)
            simp only [List.length_cons] at hs
            omega
          rcases ih _ hlen c hc with h1 | h1
          · exact Or.inl h1
          · exact Or.inr (List.mem_of_mem_drop h1)
      · rw [dif_neg hb] at hc
        rcases List.mem_cons.mp hc with rfl | hc
        · exact Or.inr (List.mem_cons_self _ _)
        · have hlen : rest.length ≤ n := by
            simp only [List.length_cons] at hs
            omega
          rcases ih _ hlen c hc with h1 | h1
          · exact Or.inl h1
          · exact Or.inr (List.mem_cons_of_mem _ h1)

theorem mem_pyReplace {t s : Str} {c : Char} (hc : c ∈ pyReplace t [' '] s) :
    c = ' ' ∨ c ∈ s :=
  mem_pyReplace_aux s.length s (Nat.le_refl _) c hc

/-! ### Python split(), join and strip(), and whitespace collapsing -/

/-- Predicate for a character that is not Python whitespace. -/
def notWs (c : Char) : Bool := ! pyIsWs c

/-- Python s.split() with no argument: tokens separated by runs of
whitespace, with no empty tokens. -/
def pySplit (s : Str) : List Str :=
  match s with
  | [] => []
  | c :: rest =>
    if pyIsWs c then pySplit rest
    else (c :: rest.takeWhile notWs) :: pySplit (rest.dropWhile notWs)
termination_by s.length
decreasing_by
  · simp
  · have := (List.dropWhile_sublist (l := rest) notWs).length_le
    simp only [List.length_cons]
    omega

/-- Python join of tokens with a single space separator. -/
def joinSp : List Str → Str
  | [] => []
  | [t] => t
  | t :: ts => t ++ ' ' :: joinSp ts

/-- The whitespace collapsing written in the sources as a space-join of a
split, used by normalize_name. -/
def pyCollapse (s : Str) : Str := joinSp (pySplit s)

/-- Python s.strip() with no argument: drop whitespace from both ends. -/
def pyStrip (s : Str) : Str :=
  ((s.dropWhile pyIsWs).reverse.dropWhile pyIsWs).reverse

theorem takeWhile_all {p : Char → Bool} :
    ∀ {l : Str}, (∀ a ∈ l, p a = true) → l.takeWhile p = l := by
  intro l
  induction l with
  | nil => intro _; rfl
  | cons a l ih =>
    intro h
    rw [List.takeWhile_cons_of_pos (h a (List.mem_cons_self _ _))]
    rw [ih (fun b hb => h b (List.mem_cons_of_mem _ hb))]

theorem dropWhile_all {p : Char → Bool} :
    ∀ {l : Str}, (∀ a ∈ l, p a = true) → l.dropWhile p = [] := by
  intro l
  induction l with
  | nil => intro _; rfl
  | cons a l ih =>
    intro h
    rw [List.dropWhile_cons_of_pos (h a (List.mem_cons_self _ _))]
    exact ih (fun b hb => h b (List.mem_cons_of_mem _ hb))

theorem takeWhile_append_stop {p : Char → Bool} {x : Char} {r : Str}
    (hx : p x = false) :
    ∀ {l : Str}, (∀ a ∈ l, p a = true) →
      (l ++ x :: r).takeWhile p = l ∧ (l ++ x :: r).dropWhile p = x :: r := by
  intro l
  induction l with
  | nil =>
    intro _
    constructor
    · simp [List.takeWhile_cons, hx]
    · simp [List.dropWhile_cons, hx]
  | cons a l ih =>
    intro h
    have ha : p a = true := h a (List.mem_cons_self _ _)
    have hrest := ih (fun b hb => h b (List.mem_cons_of_mem _ hb))
    constructor
    · simpa [List.takeWhile_cons_of_pos ha] using hrest.1
    · simpa [List.dropWhile_cons_of_pos ha] using hrest.2

/-- Every token of pySplit is nonempty and whitespace-free. -/
theorem pySplit_tokens_wf_aux :
    ∀ (n : Nat) (s : Str), s.length ≤ n → ∀ tk ∈ pySplit s,
      tk ≠ [] ∧ ∀ c ∈ tk, pyIsWs c = false := by
  intro n
  induction n with
  | zero =>
    intro s hs tk htk
    have : s = [] := List.length_eq_zero.mp (by omega)
    subst this
    rw [pySplit] at htk
    simp at htk
  | succ n ih =>
    intro s hs tk htk
    cases s with
    | nil =>
      rw [pySplit] at htk
      simp at htk
    | cons c rest =>
      rw [pySplit] at htk
      by_cases hc : pyIsWs c
      · rw [if_pos hc] at htk
        exact ih rest (by simp at hs; omega) tk htk
      · rw [if_neg hc] at htk
        rcases List.mem_cons.mp htk with rfl | htk'
        · refine ⟨by simp, ?_⟩
          intro d hd
          rcases List.mem_cons.mp hd with rfl | hd'
          · simpa using hc
          · have := List.mem_takeWhile_imp hd'
            simpa [notWs] using this
        · have hlen : (rest.dropWhile notWs).length ≤ n := by
            have := (List.dropWhile_sublist (l := rest) notWs).length_le
            simp only [List.length_cons] at hs
            omega
          exact ih _ hlen tk htk'

theorem pySplit_tokens_wf {s : Str} :
    ∀ tk ∈ pySplit s, tk ≠ [] ∧ ∀ c ∈ tk, pyIsWs c = false :=
  pySplit_tokens_wf_aux s.length s (Nat.le_refl _)

/-- Every token of pySplit is a contiguous substring of the input. -/
theorem pySplit_chunk_aux :
    ∀ (n : Nat) (s : Str), s.length ≤ n → ∀ tk ∈ pySplit s,
      ∃ a b, s = a ++ tk ++ b := by
  intro n
  induction n with
  | zero =>
    intro s hs tk htk
    have : s = [] := List.length_eq_zero.mp (by omega)
    subst this
    rw [pySplit] at htk
    simp at htk
  | succ n ih =>
    intro s hs tk htk
    cases s with
    | nil =>
      rw [pySplit] at htk
      simp at htk
    | cons c rest =>
      rw [pySplit] at htk
      by_cases hc : pyIsWs c
      · rw [if_pos hc] at htk
        rcases ih rest (by simp at hs; omega) tk htk with ⟨a, b, hab⟩
        exact ⟨c :: a, b, by simp [hab]⟩
      · rw [if_neg hc] at htk
        rcases List.mem_cons.mp htk with rfl | htk'
        · refine ⟨[], rest.dropWhile notWs, ?_⟩
          simp [List.takeWhile_append_dropWhile]
        · have hlen : (rest.dropWhile notWs).length ≤ n := by
            have := (List.dropWhile_sublist (l := rest) notWs).length_le
            simp only [List.length_cons] at hs
            omega
          rcases ih _ hlen tk htk' with ⟨a, b, hab⟩
          refine ⟨c :: rest.takeWhile notWs ++ a, b, ?_⟩
          have : rest = rest.takeWhile notWs ++ rest.dropWhile notWs :=
            (List.takeWhile_append_dropWhile (p := notWs) (l := rest)).symm
          conv_lhs => rw [this, hab]
          simp

theorem pySplit_chunk {s : Str} :
    ∀ tk ∈ pySplit s, ∃ a b, s = a ++ tk ++ b :=
  pySplit_chunk_aux s.length s (Nat.le_refl _)

theorem joinSp_nil : joinSp [] = [] := rfl

theorem joinSp_single (t : Str) : joinSp [t] = t := rfl

theorem joinSp_cons_cons (t t2 : Str) (ts : List Str) :
    joinSp (t :: t2 :: ts) = t ++ ' ' :: joinSp (t2 :: ts) := rfl

theorem joinSp_ne_nil {ts : List Str} (hne : ts ≠ [])
    (h : ∀ tk ∈ ts, tk ≠ []) : joinSp ts ≠ [] := by
  match ts with
  | [] => exact absurd rfl hne
  | [t] =>
    rw [joinSp_single]
    exact h t (List.mem_cons_self _ _)
  | t :: t2 :: ts =>
    rw [joinSp_cons_cons]
    have := h t (List.mem_cons_self _ _)
    cases t with
    | nil => exact absurd rfl this
    | cons c l => simp

theorem pySplit_joinSp :
    ∀ (ts : List Str), (∀ tk ∈ ts, tk ≠ [] ∧ ∀ c ∈ tk, pyIsWs c = false) →
      pySplit (joinSp ts) = ts := by
  intro ts
  induction ts with
  | nil => intro _; rw [joinSp_nil, pySplit]
  | cons t ts ih =>
    intro h
    have ht := h t (List.mem_cons_self _ _)
    obtain ⟨c, l, rfl⟩ : ∃ c l, t = c :: l := by
      cases t with
      | nil => exact absurd rfl ht.1
      | cons c l => exact ⟨c, l, rfl⟩
    have hcw : pyIsWs c = false := ht.2 c (List.mem_cons_self _ _)
    have hlw : ∀ a ∈ l, notWs a = true := by
      intro a ha
      have := ht.2 a (List.mem_cons_of_mem _ ha)
      simp [notWs, this]
    cases ts with
    | nil =>
      rw [joinSp_single, pySplit, if_neg (by simp [hcw])]
      rw [takeWhile_all hlw, dropWhile_all hlw, pySplit]
    | cons t2 ts' =>
      rw [joinSp_cons_cons]
      have hsep : notWs ' ' = false := by decide
      have hstop := takeWhile_append_stop (p := notWs) (x := ' ')
        (r := joinSp (t2 :: ts')) hsep hlw
      have hjoin : (c :: l) ++ ' ' :: joinSp (t2 :: ts')
          = c :: (l ++ ' ' :: joinSp (t2 :: ts')) := by simp
      rw [hjoin, pySplit, if_neg (by simp [hcw])]
      rw [hstop.1, hstop.2]
      have : pySplit (' ' :: joinSp (t2 :: ts')) = pySplit (joinSp (t2 :: ts')) := by
        rw [pySplit, if_pos (by decide)]
      rw [this, ih (fun tk htk => h tk (List.mem_cons_of_mem _ htk))]

theorem isPrefixL_append_sep {z : Str} :
    ∀ (u x : Str), (' ' ∉ u) → isPrefixL u (x ++ ' ' :: z) = true →
      isPrefixL u x = true := by
  intro u
  induction u with
  | nil => intro x _ _; cases x <;> rfl
  | cons a u' ih =>
    intro x hu hp
    cases x with
    | nil =>
      rcases isPrefixL_cons_iff.mp (by simpa using hp) with ⟨rfl, _⟩
      exact absurd (List.mem_cons_self _ _) hu
    | cons b x' =>
      rcases isPrefixL_cons_iff.mp (by simpa using hp) with ⟨rfl, hp'⟩
      have hu' : ' ' ∉ u' := fun hm => hu (List.mem_cons_of_mem _ hm)
      exact isPrefixL_cons_iff.mpr ⟨rfl, ih x' hu' hp'⟩

theorem occurs_append_sep {u z : Str} (hu : ' ' ∉ u) :
    ∀ (x : Str), Occurs u (x ++ ' ' :: z) → Occurs u x ∨ Occurs u z := by
  intro x
  induction x with
  | nil =>
    intro ho
    cases u with
    | nil => exact Or.inl (occurs_nil_left [])
    | cons a u' =>
      rcases occurs_cons_iff.mp (by simpa using ho) with hpre | htl
      · rcases isPrefixL_cons_iff.mp hpre with ⟨rfl, _⟩
        exact absurd (List.mem_cons_self _ _) hu
      · exact Or.inr htl
  | cons b x' ih =>
    intro ho
    have ho' : Occurs u (b :: (x' ++ ' ' :: z)) := by simpa using ho
    rcases occurs_cons_iff.mp ho' with hpre | htl
    · have : isPrefixL u ((b :: x') ++ ' ' :: z) = true := by simpa using hpre
      exact Or.inl (occurs_of_isPrefixL (isPrefixL_append_sep u (b :: x') hu this))
    · rcases ih htl with h1 | h1
      · exact Or.inl (occurs_cons_of_occurs h1)
      · exact Or.inr h1

theorem occurs_joinSp {u : Str} (hne : u ≠ []) (hu : ' ' ∉ u) :
    ∀ (ts : List Str), Occurs u (joinSp ts) → ∃ tk ∈ ts, Occurs u tk := by
  intro ts
  induction ts with
  | nil =>
    intro ho
    rw [joinSp_nil] at ho
    exact absurd ho (not_occurs_nil hne)
  | cons t ts ih =>
    intro ho
    cases ts with
    | nil =>
      rw [joinSp_single] at ho
      exact ⟨t, List.mem_cons_self _ _, ho⟩
    | cons t2 ts' =>
      rw [joinSp_cons_cons] at ho
      rcases occurs_append_sep hu t ho with h1 | h1
      · exact ⟨t, List.mem_cons_self _ _, h1⟩
      · rcases ih h1 with ⟨tk, htk, hocc⟩
        exact ⟨tk, List.mem_cons_of_mem _ htk, hocc⟩

theorem occurs_of_occurs_within {u v s : Str} (h1 : Occurs u v)
    (h2 : ∃ a b, s = a ++ v ++ b) : Occurs u s := by
  rcases h1 with ⟨a2, b2, rfl⟩
  rcases h2 with ⟨a, b, rfl⟩
  exact ⟨a ++ a2, b2 ++ b, by simp⟩

theorem not_occurs_pyCollapse {u s : Str} (hne : u ≠ [])
    (hu : ∀ c ∈ u, pyIsWs c = false) (h : ¬ Occurs u s) :
    ¬ Occurs u (pyCollapse s) := by
  intro ho
  have hsp : ' ' ∉ u := by
    intro hm
    have := hu ' ' hm
    simp [pyIsWs] at this
  rcases occurs_joinSp hne hsp (pySplit s) ho with ⟨tk, htk, hocc⟩
  exact h (occurs_of_occurs_within hocc (pySplit_chunk tk htk))

theorem mem_joinSp {c : Char} :
    ∀ (ts : List Str), c ∈ joinSp ts → c = ' ' ∨ ∃ tk ∈ ts, c ∈ tk := by
  intro ts
  induction ts with
  | nil => intro h; rw [joinSp_nil] at h; simp at h
  | cons t ts ih =>
    intro h
    cases ts with
    | nil =>
      rw [joinSp_single] at h
      exact Or.inr ⟨t, List.mem_cons_self _ _, h⟩
    | cons t2 ts' =>
      rw [joinSp_cons_cons] at h
      rcases List.mem_append.mp h with h1 | h1
      · exact Or.inr ⟨t, List.mem_cons_self _ _, h1⟩
      · rcases List.mem_cons.mp h1 with rfl | h2
        · exact Or.inl rfl
        · rcases ih h2 with h3 | ⟨tk, htk, hc⟩
          · exact Or.inl h3
          · exact Or.inr ⟨tk, List.mem_cons_of_mem _ htk, hc⟩

theorem lowered_pyCollapse {s : Str} (h : Lowered s) : Lowered (pyCollapse s) := by
  intro c hc
  rcases mem_joinSp (pySplit s) hc with rfl | ⟨tk, htk, hmem⟩
  · exact pyLowerChar_space
  · rcases pySplit_chunk tk htk with ⟨a, b, rfl⟩
    exact h c (by simp [hmem])

theorem lowered_pyReplace {t s : Str} (h : Lowered s) :
    Lowered (pyReplace t [' '] s) := by
  intro c hc
  rcases mem_pyReplace hc with rfl | hmem
  · exact pyLowerChar_space
  · exact h c hmem

theorem joinSp_head {ts : List Str}
    (h : ∀ tk ∈ ts, tk ≠ [] ∧ ∀ c ∈ tk, pyIsWs c = false) :
    ts = [] ∨ ∃ c l, joinSp ts = c :: l ∧ pyIsWs c = false := by
  match ts with
  | [] => exact Or.inl rfl
  | [t] =>
    right
    have ht := h t (List.mem_cons_self _ _)
    obtain ⟨c, l, rfl⟩ : ∃ c l, t = c :: l := by
      cases t with
      | nil => exact absurd rfl ht.1
      | cons c l => exact ⟨c, l, rfl⟩
    exact ⟨c, l, joinSp_single _, ht.2 c (List.mem_cons_self _ _)⟩
  | t :: t2 :: ts' =>
    right
    have ht := h t (List.mem_cons_self _ _)
    obtain ⟨c, l, rfl⟩ : ∃ c l, t = c :: l := by
      cases t with
      | nil => exact absurd rfl ht.1
      | cons c l => exact ⟨c, l, rfl⟩
    refine ⟨c, l ++ ' ' :: joinSp (t2 :: ts'), ?_, ht.2 c (List.mem_cons_self _ _)⟩
    rw [joinSp_cons_cons]
    simp

theorem joinSp_reverse_head :
    ∀ (ts : List Str), (∀ tk ∈ ts, tk ≠ [] ∧ ∀ c ∈ tk, pyIsWs c = false) →
      ts ≠ [] → ∃ c l, (joinSp ts).reverse = c :: l ∧ pyIsWs c = false := by
  intro ts
  induction ts with
  | nil => intro _ hne; exact absurd rfl hne
  | cons t ts ih =>
    intro h _
    cases ts with
    | nil =>
      have ht := h t (List.mem_cons_self _ _)
      rw [joinSp_single]
      obtain ⟨c, l, hrev⟩ : ∃ c l, t.reverse = c :: l := by
        cases hr : t.reverse with
        | nil => exact absurd (List.reverse_eq_nil_iff.mp hr) ht.1
        | cons c l => exact ⟨c, l, rfl⟩
      have hc : c ∈ t := by
        have : c ∈ t.reverse := by rw [hrev]; exact List.mem_cons_self _ _
        simpa using this
      exact ⟨c, l, hrev, ht.2 c hc⟩
    | cons t2 ts' =>
      rcases ih (fun tk htk => h tk (List.mem_cons_of_mem _ htk)) (by simp)
        with ⟨c, l, hrev, hcw⟩
      refine ⟨c, l ++ ' ' :: t.reverse, ?_, hcw⟩
      rw [joinSp_cons_cons]
      simp only [List.reverse_append, List.reverse_cons]
      rw [hrev]
      simp

theorem pyStrip_pyCollapse (s : Str) : pyStrip (pyCollapse s) = pyCollapse s := by
  have hwf := pySplit_tokens_wf (s := s)
  rcases joinSp_head hwf with hnil | ⟨c, l, hcl, hcw⟩
  · unfold pyCollapse
    rw [hnil]
    rfl
  · have hrev := joinSp_reverse_head (pySplit s) hwf
      (by intro hx; rw [hx] at hcl; simp [joinSp_nil] at hcl)
    rcases hrev with ⟨c', l', hrl, hcw'⟩
    unfold pyStrip pyCollapse
    rw [hcl]
    rw [List.dropWhile_cons_of_neg (by simp [hcw])]
    rw [← hcl, hrl]
    rw [List.dropWhile_cons_of_neg (by simp [hcw'])]
    rw [← hrl]
    simp

theorem pyCollapse_idem (s : Str) : pyCollapse (pyCollapse s) = pyCollapse s := by
  unfold pyCollapse
  rw [pySplit_joinSp (pySplit s) pySplit_tokens_wf]

/-! ### The normalize_name functions of match-restaurants-yelp-api.py and
match-restaurants.py -/

/-- Sequential replacement of every filler word by a space, modelling the
for-loop over word lists in normalize_name. -/
def pyRemoveWords (ws : List Str) (s : Str) : Str :=
  ws.foldl (fun acc w => pyReplace w [' '] acc) s

theorem pyRemoveWords_nil (s : Str) : pyRemoveWords [] s = s := rfl

theorem pyRemoveWords_cons (w : Str) (ws : List Str) (s : Str) :
    pyRemoveWords (w :: ws) s = pyRemoveWords ws (pyReplace w [' '] s) := rfl

theorem lowered_pyRemoveWords {ws : List Str} :
    ∀ {s : Str}, Lowered s → Lowered (pyRemoveWords ws s) := by
  induction ws with
  | nil => intro s h; exact h
  | cons w ws ih =>
    intro s h
    rw [pyRemoveWords_cons]
    exact ih (lowered_pyReplace h)

theorem not_occurs_pyRemoveWords {u : Str} (hu : ' ' ∉ u) {ws : List Str} :
    ∀ {s : Str}, ¬ Occurs u s → ¬ Occurs u (pyRemoveWords ws s) := by
  induction ws with
  | nil => intro s h; exact h
  | cons w ws ih =>
    intro s h
    rw [pyRemoveWords_cons]
    exact ih (not_occurs_pyReplace_other hu h)

theorem not_occurs_filler_pyRemoveWords {ws : List Str}
    (hws : ∀ w ∈ ws, w ≠ [] ∧ ∀ c ∈ w, pyIsWs c = false) :
    ∀ w ∈ ws, ∀ (s : Str), ¬ Occurs w (pyRemoveWords ws s) := by
  induction ws with
  | nil => intro w hw; simp at hw
  | cons w0 ws ih =>
    intro w hw s
    have hsp : ∀ v ∈ w0 :: ws, ' ' ∉ v := by
      intro v hv hm
      have := (hws v hv).2 ' ' hm
      simp [pyIsWs] at this
    rcases List.mem_cons.mp hw with rfl | hw'
    · rw [pyRemoveWords_cons]
      exact not_occurs_pyRemoveWords (hsp w (List.mem_cons_self _ _))
        (not_occurs_pyReplace_self (hws w (List.mem_cons_self _ _)).1
          (hsp w (List.mem_cons_self _ _)) s)
    · rw [pyRemoveWords_cons]
      exact ih (fun v hv => hws v (List.mem_cons_of_mem _ hv)) w hw' _

theorem pyRemoveWords_eq_self {ws : List Str} :
    ∀ {s : Str}, (∀ w ∈ ws, ¬ Occurs w s) → pyRemoveWords ws s = s := by
  induction ws with
  | nil => intro s _; rfl
  | cons w ws ih =>
    intro s h
    rw [pyRemoveWords_cons]
    rw [pyReplace_of_not_occurs (h w (List.mem_cons_self _ _))]
    exact ih (fun v hv => h v (List.mem_cons_of_mem _ hv))

/-- The normalize_name functions of the matching scripts: lowercase,
replace each filler word of the given list by a space, collapse
whitespace, strip.  Empty input returns the empty string at once. -/
def normalize_name (fillers : List Str) (s : Str) : Str :=
  if s.isEmpty then []
  else pyStrip (pyCollapse (pyRemoveWords fillers (pyLower s)))

/-- Filler-word list of normalize_name in match-restaurants-yelp-api.py. -/
def fillersApi : List Str :=
  ["restaurant".toList, "chinese".toList, "buffet".toList, "&".toList,
   "and".toList, "inc".toList, "llc".toList]

/-- Filler-word list of normalize_name in match-restaurants.py. -/
def fillersScrape : List Str :=
  ["restaurant".toList, "chinese".toList, "buffet".toList, "&".toList,
   "and".toList]

/-- The normalize_name of match-restaurants-yelp-api.py. -/
def normalizeNameApi (s : Str) : Str := normalize_name fillersApi s

/-- The normalize_name of match-restaurants.py. -/
def normalizeNameScrape (s : Str) : Str := normalize_name fillersScrape s

theorem normalize_name_idem {ws : List Str}
    (hws : ∀ w ∈ ws, w ≠ [] ∧ ∀ c ∈ w, pyIsWs c = false) (s : Str) :
    normalize_name ws (normalize_name ws s) = normalize_name ws s := by
  by_cases hempty : (normalize_name ws s).isEmpty
  · have hnil : normalize_name ws s = [] := by
      cases h : normalize_name ws s with
      | nil => rfl
      | cons c l => rw [h] at hempty; simp at hempty
    rw [hnil]
    rfl
  · have hsne : s.isEmpty = false := by
      by_contra hs
      have : s.isEmpty = true := by
        cases h : s.isEmpty
        · exact absurd h hs
        · rfl
      rw [normalize_name, if_pos this] at hempty
      exact hempty rfl
    have hyz : normalize_name ws s
        = pyCollapse (pyRemoveWords ws (pyLower s)) := by
      rw [normalize_name, if_neg (by simp [hsne])]
      exact pyStrip_pyCollapse _
    have hlow : Lowered (normalize_name ws s) := by
      rw [hyz]
      exact lowered_pyCollapse (lowered_pyRemoveWords (lowered_pyLower s))
    have h1 : pyLower (normalize_name ws s) = normalize_name ws s :=
      pyLower_eq_self_of_lowered hlow
    have h2 : pyRemoveWords ws (normalize_name ws s) = normalize_name ws s := by
      apply pyRemoveWords_eq_self
      intro w hw
      rw [hyz]
      exact not_occurs_pyCollapse (hws w hw).1 (hws w hw).2
        (not_occurs_filler_pyRemoveWords hws w hw _)
    have h3 : pyCollapse (normalize_name ws s) = normalize_name ws s := by
      rw [hyz, pyCollapse_idem]
    rw [normalize_name, if_neg (by simp [hempty])]
    rw [h1, h2, h3, hyz]
    exact pyStrip_pyCollapse _

/-- C3: normalize_name is idempotent: applying it twice gives the same
result as applying it once, for the filler-word list of
match-restaurants-yelp-api.py and for the one of match-restaurants.py. -/
theorem C3_normalize_name_idempotent :
    (∀ s : Str, normalizeNameApi (normalizeNameApi s) = normalizeNameApi s) ∧
    (∀ s : Str, normalizeNameScrape (normalizeNameScrape s) = normalizeNameScrape s) := by
  constructor
  · intro s
    exact normalize_name_idem (by decide) s
  · intro s
    exact normalize_name_idem (by decide) s

/-! ### The candidate selection loops of search_yelp_api in
match-restaurants-yelp-api.py and search_tripadvisor in
match-restaurants.py.

A candidate carries the quantities the loops actually branch on: the
fuzzy name-similarity score of its name against the target (an integer
percentage), and whether city and phone matched.  The cid field is an
identifying payload standing for the rest of the business data. -/

structure Cand where
  cid : Nat
  nameScore : Nat
  cityMatch : Bool
  phoneMatch : Bool
deriving DecidableEq

/-- The total_score computed in search_yelp_api: name score plus 10 for a
city match plus 20 for a phone match. -/
def totalScore (c : Cand) : Nat :=
  c.nameScore + (if c.cityMatch then 10 else 0) + (if c.phoneMatch then 20 else 0)

/-- The name-similarity floor of the loops: the branch takes a candidate
only when name_score is strictly greater than 70. -/
def passesFloor (c : Cand) : Bool := 70 < c.nameScore

/-- The selection loop of search_yelp_api with its running best_match and
best_score state: a candidate replaces the best when total_score exceeds
best_score and name_score exceeds 70. -/
def selectLoop (best : Option Cand) (bestScore : Nat) : List Cand → Option Cand
  | [] => best
  | c :: rest =>
    if bestScore < totalScore c ∧ passesFloor c then
      selectLoop (some c) (totalScore c) rest
    else
      selectLoop best bestScore rest

/-- The candidate search_yelp_api selects from the businesses list,
starting from best_match None and best_score 0. -/
def selectYelpApi (cs : List Cand) : Option Cand := selectLoop none 0 cs

/-- The selection loop of search_tripadvisor: return the first candidate
whose name-similarity score exceeds 70. -/
def selectTripadvisor : List Cand → Option Cand
  | [] => none
  | c :: rest => if passesFloor c then some c else selectTripadvisor rest

/-- Recursive restatement of the yelp-api selection used to reason about
selectLoop: keep the head when it passes the floor and no later candidate
beats its total score strictly. -/
def bestOf : List Cand → Option Cand
  | [] => none
  | c :: rest =>
    if passesFloor c then
      match bestOf rest with
      | none => some c
      | some d => if totalScore c < totalScore d then some d else some c
    else bestOf rest

theorem selectLoop_eq_bestOf :
    ∀ (cs : List Cand) (best : Option Cand) (bs : Nat),
      selectLoop best bs cs =
        match bestOf cs with
        | none => best
        | some d => if bs < totalScore d then some d else best := by
  intro cs
  induction cs with
  | nil => intro best bs; rfl
  | cons c rest ih =>
    intro best bs
    by_cases hp : passesFloor c
    · by_cases hb : bs < totalScore c
      · rw [selectLoop, if_pos ⟨hb, hp⟩, ih, bestOf, if_pos hp]
        cases hrest : bestOf rest with
        | none => simp [hb]
        | some d =>
          by_cases hd : totalScore c < totalScore d
          · have hbd : bs < totalScore d := Nat.lt_trans hb hd
            simp [hd, hbd]
          · simp [hd, hb]
      · rw [selectLoop, if_neg (by tauto), ih, bestOf, if_pos hp]
        cases hrest : bestOf rest with
        | none => simp [hb]
        | some d =>
          by_cases hd : totalScore c < totalScore d
          · simp [hd]
          · have h2 : ¬ bs < totalScore d := by
              simp [totalScore, passesFloor] at *
              omega
            simp [hd, hb, h2]
    · rw [selectLoop, if_neg (by tauto), ih, bestOf, if_neg hp]

theorem bestOf_spec :
    ∀ (cs : List Cand),
      (bestOf cs = none → ∀ c ∈ cs, passesFloor c = false) ∧
      (∀ c, bestOf cs = some c →
        passesFloor c = true ∧ c ∈ cs ∧
        (∀ d ∈ cs, passesFloor d = true → totalScore d ≤ totalScore c) ∧
        ∃ l1 l2, cs = l1 ++ c :: l2 ∧
          ∀ d ∈ l1, passesFloor d = true → totalScore d < totalScore c) := by
  intro cs
  induction cs with
  | nil =>
    constructor
    · intro _ c hc
      simp at hc
    · intro c hc
      simp [bestOf] at hc
  | cons a rest ih =>
    by_cases hp : passesFloor a
    · constructor
      · intro hnone
        rw [bestOf, if_pos hp] at hnone
        cases hrest : bestOf rest with
        | none => rw [hrest] at hnone; simp at hnone
        | some d => rw [hrest] at hnone; by_cases hd : totalScore a < totalScore d <;>
            simp [hd] at hnone
      · intro c hc
        rw [bestOf, if_pos hp] at hc
        cases hrest : bestOf rest with
        | none =>
          rw [hrest] at hc
          simp only [Option.some.injEq] at hc
          subst hc
          have hall := ih.1 hrest
          refine ⟨hp, List.mem_cons_self _ _, ?_, [], rest, rfl, by simp⟩
          intro d hd hdp
          rcases List.mem_cons.mp hd with rfl | hd'
          · exact Nat.le_refl _
          · rw [hall d hd'] at hdp
            exact absurd hdp (by simp)
        | some d =>
          rw [hrest] at hc
          have hc' : (if totalScore a < totalScore d then some d else some a)
              = some c := hc
          have hdspec := (ih.2) d hrest
          by_cases hcomp : totalScore a < totalScore d
          · rw [if_pos hcomp] at hc'
            simp only [Option.some.injEq] at hc'
            subst hc'
            rcases hdspec with ⟨hdp, hdmem, hdmax, l1, l2, hsplit, hstrict⟩
            refine ⟨hdp, List.mem_cons_of_mem _ hdmem, ?_, a :: l1, l2, by rw [hsplit]; simp, ?_⟩
            · intro e he hep
              rcases List.mem_cons.mp he with rfl | he'
              · exact Nat.le_of_lt hcomp
              · exact hdmax e he' hep
            · intro e he hep
              rcases List.mem_cons.mp he with rfl | he'
              · exact hcomp
              · exact hstrict e he' hep
          · rw [if_neg hcomp] at hc'
            simp only [Option.some.injEq] at hc'
            subst hc'
            rcases hdspec with ⟨hdp, hdmem, hdmax, _⟩
            refine ⟨hp, List.mem_cons_self _ _, ?_, [], rest, rfl, by simp⟩
            intro e he hep
            rcases List.mem_cons.mp he with rfl | he'
            · exact Nat.le_refl _
            · exact Nat.le_trans (hdmax e he' hep) (by omega)
    · constructor
      · intro hnone
        rw [bestOf, if_neg hp] at hnone
        intro c hc
        rcases List.mem_cons.mp hc with rfl | hc'
        · simpa using hp
        · exact ih.1 hnone c hc'
      · intro c hc
        rw [bestOf, if_neg hp] at hc
        rcases (ih.2) c hc with ⟨hcp, hcmem, hcmax, l1, l2, hsplit, hstrict⟩
        refine ⟨hcp, List.mem_cons_of_mem _ hcmem, ?_, a :: l1, l2, by rw [hsplit]; simp, ?_⟩
        · intro e he hep
          rcases List.mem_cons.mp he with rfl | he'
          · exact absurd hep hp
          · exact hcmax e he' hep
        · intro e he hep
          rcases List.mem_cons.mp he with rfl | he'
          · exact absurd hep hp
          · exact hstrict e he' hep

theorem selectYelpApi_eq_bestOf (cs : List Cand) : selectYelpApi cs = bestOf cs := by
  rw [selectYelpApi, selectLoop_eq_bestOf]
  cases hrest : bestOf cs with
  | none => rfl
  | some d =>
    simp only
    have hd := (bestOf_spec cs).2 d hrest
    have : 0 < totalScore d := by
      have : (70 : Nat) < d.nameScore := by
        have := hd.1
        simpa [passesFloor] using this
      unfold totalScore
      omega
    rw [if_pos this]

theorem selectTripadvisor_spec :
    ∀ (cs : List Cand),
      (selectTripadvisor cs = none → ∀ c ∈ cs, passesFloor c = false) ∧
      (∀ c, selectTripadvisor cs = some c →
        passesFloor c = true ∧
        ∃ l1 l2, cs = l1 ++ c :: l2 ∧ ∀ d ∈ l1, passesFloor d = false) := by
  intro cs
  induction cs with
  | nil =>
    constructor
    · intro _ c hc
      simp at hc
    · intro c hc
      simp [selectTripadvisor] at hc
  | cons a rest ih =>
    by_cases hp : passesFloor a
    · constructor
      · intro hnone
        rw [selectTripadvisor, if_pos hp] at hnone
        simp at hnone
      · intro c hc
        rw [selectTripadvisor, if_pos hp] at hc
        simp only [Option.some.injEq] at hc
        subst hc
        exact ⟨hp, [], rest, rfl, by simp⟩
    · have hpf : passesFloor a = false := by simpa using hp
      constructor
      · intro hnone
        rw [selectTripadvisor, if_neg hp] at hnone
        intro c hc
        rcases List.mem_cons.mp hc with rfl | hc'
        · exact hpf
        · exact ih.1 hnone c hc'
      · intro c hc
        rw [selectTripadvisor, if_neg hp] at hc
        rcases ih.2 c hc with ⟨hcp, l1, l2, hsplit, hall⟩
        refine ⟨hcp, a :: l1, l2, by rw [hsplit]; simp, ?_⟩
        intro d hd
        rcases List.mem_cons.mp hd with rfl | hd'
        · exact hpf
        · exact hall d hd'

/-- C1 counterexample: search_tripadvisor returns the first candidate
over the name-similarity floor even when a later candidate has a
strictly larger total score, so the selection is not maximal there. -/
theorem C1_counterexample :
    selectTripadvisor [⟨0, 71, false, false⟩, ⟨1, 99, false, false⟩]
        = some ⟨0, 71, false, false⟩ ∧
    passesFloor ⟨1, 99, false, false⟩ = true ∧
    totalScore ⟨0, 71, false, false⟩ < totalScore ⟨1, 99, false, false⟩ := by
  decide

/-- C1 (amended): search_yelp_api selects the candidate with maximal
total score among candidates over the floor, with the earliest seen
winning ties, while search_tripadvisor returns the first candidate over
the floor regardless of the scores of later candidates. -/
theorem C1_matcher_selection :
    (∀ cs : List Cand,
      (selectYelpApi cs = none → ∀ c ∈ cs, passesFloor c = false) ∧
      (∀ c, selectYelpApi cs = some c →
        passesFloor c = true ∧ c ∈ cs ∧
        (∀ d ∈ cs, passesFloor d = true → totalScore d ≤ totalScore c) ∧
        ∃ l1 l2, cs = l1 ++ c :: l2 ∧
          ∀ d ∈ l1, passesFloor d = true → totalScore d < totalScore c)) ∧
    (∀ cs : List Cand,
      (selectTripadvisor cs = none → ∀ c ∈ cs, passesFloor c = false) ∧
      (∀ c, selectTripadvisor cs = some c →
        passesFloor c = true ∧
        ∃ l1 l2, cs = l1 ++ c :: l2 ∧ ∀ d ∈ l1, passesFloor d = false)) := by
  constructor
  · intro cs
    have h := bestOf_spec cs
    rwa [← selectYelpApi_eq_bestOf] at h
  · exact selectTripadvisor_spec

theorem C1_matcher_selection_witness :
    (∀ c ∈ [Cand.mk 0 10 false false], passesFloor c = false) ∧
    (passesFloor ⟨1, 80, false, false⟩ = true ∧
      ∃ l1 l2, [Cand.mk 1 80 false false] = l1 ++ ⟨1, 80, false, false⟩ :: l2 ∧
        ∀ d ∈ l1, passesFloor d = false) :=
  ⟨(C1_matcher_selection.1 [⟨0, 10, false, false⟩]).1 (by decide),
   (C1_matcher_selection.2 [⟨1, 80, false, false⟩]).2 ⟨1, 80, false, false⟩ (by decide)⟩

/-- C2 counterexample: a candidate with name similarity exactly 70 is
discarded by search_yelp_api, even with both the city and the phone
bonus, although 70 is not below 70; the floor in the code is strict. -/
theorem C2_counterexample :
    selectYelpApi [⟨0, 70, true, true⟩] = none ∧
    totalScore ⟨0, 70, true, true⟩ = 100 := by
  decide

/-- C2 (amended): search_yelp_api discards exactly the candidates whose
name similarity is at most 70 (the floor is strict), no bonus combination
can select a candidate at or below the floor, and a non-null result
always has name similarity strictly greater than 70. -/
theorem C2_floor_strict :
    (∀ (cs : List Cand) (c : Cand), selectYelpApi cs = some c → 70 < c.nameScore) ∧
    (∀ cs : List Cand, (∀ c ∈ cs, c.nameScore ≤ 70) → selectYelpApi cs = none) ∧
    (∀ (cs : List Cand) (c : Cand), c ∈ cs → 70 < c.nameScore →
      ∃ d, selectYelpApi cs = some d) := by
  refine ⟨?_, ?_, ?_⟩
  · intro cs c hc
    have := ((bestOf_spec cs).2 c (by rwa [← selectYelpApi_eq_bestOf])).1
    simpa [passesFloor] using this
  · intro cs hall
    rw [selectYelpApi_eq_bestOf]
    cases h : bestOf cs with
    | none => rfl
    | some c =>
      have hspec := (bestOf_spec cs).2 c h
      have h70 : 70 < c.nameScore := by simpa [passesFloor] using hspec.1
      have := hall c hspec.2.1
      omega
  · intro cs c hc h70
    rw [selectYelpApi_eq_bestOf]
    cases h : bestOf cs with
    | none =>
      have := (bestOf_spec cs).1 h c hc
      simp [passesFloor] at this
      omega
    | some d => exact ⟨d, rfl⟩

theorem C2_floor_strict_witness :
    (70 : Nat) < (Cand.mk 0 85 false false).nameScore ∧
    selectYelpApi [⟨1, 60, true, true⟩] = none ∧
    ∃ d, selectYelpApi [⟨2, 90, false, false⟩] = some d :=
  ⟨C2_floor_strict.1 [⟨0, 85, false, false⟩] ⟨0, 85, false, false⟩ (by decide),
   C2_floor_strict.2.1 [⟨1, 60, true, true⟩] (by decide),
   C2_floor_strict.2.2 [⟨2, 90, false, false⟩] ⟨2, 90, false, false⟩ (by decide) (by decide)⟩

/-! ### The restaurant-mapping checkpoint of match-restaurants.py and
match-restaurants-yelp-api.py.

The mapping file is a dictionary from buffet id to an entry with the
buffet fields and one slot per external source.  The match payload type
is a parameter M; a populated slot holds some value of M, an empty slot
holds none (the JSON null). -/

structure Buffet where
  name : Str
  city : Str
  state : Str
  phone : Str

structure MapEntry (M : Type) where
  buffetName : Str
  city : Str
  state : Str
  phone : Str
  yelp : Option M
  tripadvisor : Option M

/-- The checkpoint mapping, keyed by buffet id. -/
def Mapping (M : Type) := Str → Option (MapEntry M)

/-- Fresh entry created for an unseen buffet id, with both slots null. -/
def newEntry {M : Type} (b : Buffet) : MapEntry M :=
  ⟨b.name, b.city, b.state, b.phone, none, none⟩

/-- Pointwise update of the mapping at one key. -/
def mupdate {M : Type} (m : Mapping M) (k : Str) (e : MapEntry M) : Mapping M :=
  fun k2 => if k2 = k then some e else m k2

/-- Emptiness test on the required buffet fields, modelling the
continue branch for a missing name, city or state. -/
def emptyFields (b : Buffet) : Bool :=
  b.name.isEmpty || b.city.isEmpty || b.state.isEmpty


/-- The entry a loop iteration starts from: the existing one when the id
is already in the mapping, otherwise a fresh entry with null slots. -/
def entryBase {M : Type} (m : Mapping M) (bid : Str) (b : Buffet) : MapEntry M :=
  match m bid with
  | some e => e
  | none => newEntry b

/-- The yelp-slot assignment of match_restaurants_yelp_api: the slot is
written whole when the search returned a result, else left as is. -/
def putYelpApi {M : Type} (e0 : MapEntry M) (result : Option M) : MapEntry M :=
  match result with
  | some r => { e0 with yelp := some r }
  | none => e0

/-- The guarded yelp-slot assignment of match_restaurants: only an empty
slot is written, and only when the search returned a result. -/
def putYelpGuarded {M : Type} (e0 : MapEntry M) (yres : Option M) : MapEntry M :=
  if e0.yelp.isSome then e0
  else
    match yres with
    | some r => { e0 with yelp := some r }
    | none => e0

/-- The guarded tripadvisor-slot assignment of match_restaurants. -/
def putTripGuarded {M : Type} (e1 : MapEntry M) (tres : Option M) : MapEntry M :=
  if e1.tripadvisor.isSome then e1
  else
    match tres with
    | some r => { e1 with tripadvisor := some r }
    | none => e1

/-- Whether the iteration of match_restaurants_yelp_api skips the record:
the id is in the mapping with a populated (truthy) yelp slot. -/
def skipYelpApi {M : Type} (m : Mapping M) (bid : Str) : Bool :=
  match m bid with
  | some e => e.yelp.isSome
  | none => false

/-- Whether the iteration of match_restaurants skips the record: the id
is in the mapping with both slots populated. -/
def skipScrape {M : Type} (m : Mapping M) (bid : Str) : Bool :=
  match m bid with
  | some e => e.yelp.isSome && e.tripadvisor.isSome
  | none => false

/-- One loop iteration of match_restaurants_yelp_api over the mapping
state: skip when the entry already has a yelp match or a required field
is empty, otherwise insert the entry if absent and populate the yelp
slot when the search produced a result. -/
def stepYelpApi {M : Type} (m : Mapping M) (bid : Str) (b : Buffet)
    (result : Option M) : Mapping M :=
  if skipYelpApi m bid then m
  else if emptyFields b then m
  else mupdate m bid (putYelpApi (entryBase m bid b) result)

/-- One loop iteration of match_restaurants over the mapping state: skip
when both slots are populated or a required field is empty, otherwise
insert the entry if absent and populate each still-empty slot for which
its search produced a result. -/
def stepScrape {M : Type} (m : Mapping M) (bid : Str) (b : Buffet)
    (yres tres : Option M) : Mapping M :=
  if skipScrape m bid then m
  else if emptyFields b then m
  else mupdate m bid
    (putTripGuarded (putYelpGuarded (entryBase m bid b) yres) tres)

/-- Slot order: a slot only grows from null to a value and a populated
slot is never changed. -/
def slotLE {M : Type} (a b : Option M) : Prop := a = none ∨ a = b

/-- Entry order: both slots grow monotonically. -/
def entryLE {M : Type} (e1 e2 : MapEntry M) : Prop :=
  slotLE e1.yelp e2.yelp ∧ slotLE e1.tripadvisor e2.tripadvisor

/-- Mapping order: entries are never deleted and each surviving entry
grows monotonically. -/
def mapLE {M : Type} (m1 m2 : Mapping M) : Prop :=
  ∀ k e, m1 k = some e → ∃ e2, m2 k = some e2 ∧ entryLE e e2

theorem slotLE_refl {M : Type} (a : Option M) : slotLE a a := Or.inr rfl

theorem entryLE_refl {M : Type} (e : MapEntry M) : entryLE e e :=
  ⟨slotLE_refl _, slotLE_refl _⟩

theorem mapLE_refl {M : Type} (m : Mapping M) : mapLE m m :=
  fun _ e he => ⟨e, he, entryLE_refl e⟩

theorem slotLE_trans {M : Type} {a b c : Option M} (h1 : slotLE a b)
    (h2 : slotLE b c) : slotLE a c := by
  rcases h1 with rfl | rfl
  · exact Or.inl rfl
  · exact h2

theorem entryLE_trans {M : Type} {e1 e2 e3 : MapEntry M} (h1 : entryLE e1 e2)
    (h2 : entryLE e2 e3) : entryLE e1 e3 :=
  ⟨slotLE_trans h1.1 h2.1, slotLE_trans h1.2 h2.2⟩

theorem entryLE_putYelpApi {M : Type} {e0 : MapEntry M} (h : e0.yelp = none)
    (result : Option M) : entryLE e0 (putYelpApi e0 result) := by
  cases result with
  | none => exact entryLE_refl _
  | some r => exact ⟨Or.inl h, slotLE_refl _⟩

theorem entryLE_putYelpGuarded {M : Type} (e0 : MapEntry M) (yres : Option M) :
    entryLE e0 (putYelpGuarded e0 yres) := by
  unfold putYelpGuarded
  by_cases hy : e0.yelp.isSome
  · rw [if_pos hy]
    exact entryLE_refl _
  · rw [if_neg hy]
    cases yres with
    | none => exact entryLE_refl _
    | some r =>
      have hnone : e0.yelp = none := Option.not_isSome_iff_eq_none.mp hy
      exact ⟨Or.inl hnone, slotLE_refl _⟩

theorem entryLE_putTripGuarded {M : Type} (e1 : MapEntry M) (tres : Option M) :
    entryLE e1 (putTripGuarded e1 tres) := by
  unfold putTripGuarded
  by_cases ht : e1.tripadvisor.isSome
  · rw [if_pos ht]
    exact entryLE_refl _
  · rw [if_neg ht]
    cases tres with
    | none => exact entryLE_refl _
    | some r =>
      have hnone : e1.tripadvisor = none := Option.not_isSome_iff_eq_none.mp ht
      exact ⟨slotLE_refl _, Or.inl hnone⟩

theorem mupdate_self {M : Type} (m : Mapping M) (k : Str) (e : MapEntry M) :
    mupdate m k e k = some e := by
  simp [mupdate]

theorem mupdate_other {M : Type} (m : Mapping M) (k : Str) (e : MapEntry M)
    {k2 : Str} (h : k2 ≠ k) : mupdate m k e k2 = m k2 := by
  simp [mupdate, h]

theorem stepYelpApi_monotone {M : Type} (m : Mapping M) (bid : Str)
    (b : Buffet) (result : Option M) : mapLE m (stepYelpApi m bid b result) := by
  unfold stepYelpApi
  by_cases hskip : skipYelpApi m bid = true
  · rw [if_pos hskip]
    exact mapLE_refl m
  · rw [if_neg hskip]
    by_cases hemp : emptyFields b = true
    · rw [if_pos hemp]
      exact mapLE_refl m
    · rw [if_neg hemp]
      intro k e he
      by_cases hk : k = bid
      · subst hk
        refine ⟨_, mupdate_self _ _ _, ?_⟩
        have hbase : entryBase m k b = e := by
          unfold entryBase
          rw [he]
        rw [hbase]
        apply entryLE_putYelpApi
        unfold skipYelpApi at hskip
        rw [he] at hskip
        simpa using hskip
      · rw [mupdate_other _ _ _ hk]
        exact ⟨e, he, entryLE_refl e⟩

theorem stepScrape_monotone {M : Type} (m : Mapping M) (bid : Str)
    (b : Buffet) (yres tres : Option M) :
    mapLE m (stepScrape m bid b yres tres) := by
  unfold stepScrape
  by_cases hskip : skipScrape m bid = true
  · rw [if_pos hskip]
    exact mapLE_refl m
  · rw [if_neg hskip]
    by_cases hemp : emptyFields b = true
    · rw [if_pos hemp]
      exact mapLE_refl m
    · rw [if_neg hemp]
      intro k e he
      by_cases hk : k = bid
      · subst hk
        refine ⟨_, mupdate_self _ _ _, ?_⟩
        have hbase : entryBase m k b = e := by
          unfold entryBase
          rw [he]
        rw [hbase]
        exact entryLE_trans (entryLE_putYelpGuarded e yres)
          (entryLE_putTripGuarded _ tres)
      · rw [mupdate_other _ _ _ hk]
        exact ⟨e, he, entryLE_refl e⟩

/-- C4: every processing step of either matching script only grows the
checkpoint mapping: entries are only added or have a null slot replaced
by a finalized match; no entry is deleted and no populated slot is
overwritten or reverted to null. -/
theorem C4_checkpoint_monotone :
    ∀ (M : Type) (m : Mapping M) (bid : Str) (b : Buffet),
      (∀ result : Option M, mapLE m (stepYelpApi m bid b result)) ∧
      (∀ yres tres : Option M, mapLE m (stepScrape m bid b yres tres)) :=
  fun M m bid b =>
    ⟨fun result => stepYelpApi_monotone m bid b result,
     fun yres tres => stepScrape_monotone m bid b yres tres⟩

/-! ### The search_yelp_api response handling and the main loop of
match-restaurants-yelp-api.py, for the behaviour on HTTP 401. -/

/-- Outcome of the one HTTP request search_yelp_api issues: a status code
with the parsed candidate list (used only on 200), or an exception. -/
inductive YelpApiResp where
  | http (code : Nat) (businesses : List Cand)
  | exc

/-- The search_yelp_api response handling: 401 prints an auth message and
returns None, any other non-200 returns None, an exception returns None,
and a 200 response goes through the candidate selection loop. -/
def search_yelp_api : YelpApiResp → Option Cand
  | .exc => none
  | .http code businesses =>
    if code = 401 then none
    else if code ≠ 200 then none
    else selectYelpApi businesses

/-- The main loop of match_restaurants_yelp_api over the input records,
with the network modelled as an oracle from buffet id to response.
Returns the final mapping and the ids actually queried, in order. -/
def runYelpApi (oracle : Str → YelpApiResp) :
    List (Str × Buffet) → Mapping Cand → Mapping Cand × List Str
  | [], m => (m, [])
  | (bid, b) :: rest, m =>
    if skipYelpApi m bid then runYelpApi oracle rest m
    else if emptyFields b then runYelpApi oracle rest m
    else
      let m2 := stepYelpApi m bid b (search_yelp_api (oracle bid))
      let res := runYelpApi oracle rest m2
      (res.1, bid :: res.2)

/-- An empty starting mapping. -/
def emptyMapping : Mapping Cand := fun _ => none

/-- A buffet record with all required fields present. -/
def buffetA : Buffet := ⟨"Golden Dragon".toList, "Austin".toList, "TX".toList, "5125550100".toList⟩

/-- A second buffet record with all required fields present. -/
def buffetB : Buffet := ⟨"Jade Palace".toList, "Dallas".toList, "TX".toList, "2145550101".toList⟩

theorem search_yelp_api_401 (businesses : List Cand) :
    search_yelp_api (.http 401 businesses) = none := rfl

/-- C7 counterexample: with an oracle that answers HTTP 401 to every
request, the run still queries the second record after the first one got
a 401, so a 401 does not abort the run. -/
theorem C7_counterexample :
    (runYelpApi (fun _ => .http 401 [])
      [("id-a".toList, buffetA), ("id-b".toList, buffetB)] emptyMapping).2
      = ["id-a".toList, "id-b".toList] := by
  decide

theorem skipYelpApi_step_none {m : Mapping Cand} {bid : Str} {b : Buffet}
    (k : Str) : skipYelpApi (stepYelpApi m bid b none) k = skipYelpApi m k := by
  unfold stepYelpApi
  by_cases hskip : skipYelpApi m bid = true
  · rw [if_pos hskip]
  · rw [if_neg hskip]
    by_cases hemp : emptyFields b = true
    · rw [if_pos hemp]
    · rw [if_neg hemp]
      by_cases hk : k = bid
      · subst hk
        unfold skipYelpApi
        rw [mupdate_self]
        unfold putYelpApi entryBase
        cases hm : m k with
        | none => simp [newEntry]
        | some e => simp
      · unfold skipYelpApi
        rw [mupdate_other _ _ _ hk]

theorem runYelpApi_all401 (bs : Str → List Cand) :
    ∀ (recs : List (Str × Buffet)) (m : Mapping Cand),
      (runYelpApi (fun bid => .http 401 (bs bid)) recs m).2
        = (recs.filter
            (fun rb => !(skipYelpApi m rb.1) && !(emptyFields rb.2))).map Prod.fst
      ∧ ∀ k, skipYelpApi (runYelpApi (fun bid => .http 401 (bs bid)) recs m).1 k
          = skipYelpApi m k := by
  intro recs
  induction recs with
  | nil =>
    intro m
    exact ⟨rfl, fun _ => rfl⟩
  | cons rb rest ih =>
    intro m
    obtain ⟨bid, b⟩ := rb
    by_cases hskip : skipYelpApi m bid = true
    · rw [runYelpApi, if_pos hskip]
      rcases ih m with ⟨h1, h2⟩
      refine ⟨?_, h2⟩
      rw [h1, List.filter_cons]
      simp [hskip]
    · rw [runYelpApi, if_neg hskip]
      by_cases hemp : emptyFields b = true
      · rw [if_pos hemp]
        rcases ih m with ⟨h1, h2⟩
        refine ⟨?_, h2⟩
        rw [h1, List.filter_cons]
        simp [hemp]
      · rw [if_neg hemp]
        have hsearch : search_yelp_api (.http 401 (bs bid)) = none := rfl
        rw [hsearch]
        rcases ih (stepYelpApi m bid b none) with ⟨h1, h2⟩
        constructor
        · simp only
          rw [h1, List.filter_cons]
          have hpred : (fun rb2 : Str × Buffet =>
              !(skipYelpApi (stepYelpApi m bid b none) rb2.1) && !(emptyFields rb2.2))
              = (fun rb2 : Str × Buffet =>
              !(skipYelpApi m rb2.1) && !(emptyFields rb2.2)) := by
            funext rb2
            rw [skipYelpApi_step_none]
          rw [hpred]
          simp [hskip, hemp]
        · intro k
          simp only
          rw [h2 k, skipYelpApi_step_none]

/-- C7 (amended): an HTTP 401 from the Yelp API is not fatal: the
search returns None for that record and the main loop continues, so
under an oracle answering 401 everywhere every record with nonempty
required fields and no existing yelp match is still queried and no yelp
slot is ever populated. -/
theorem C7_auth_failure_not_fatal :
    (∀ businesses : List Cand, search_yelp_api (.http 401 businesses) = none) ∧
    (∀ (bs : Str → List Cand) (recs : List (Str × Buffet)) (m : Mapping Cand),
      (runYelpApi (fun bid => .http 401 (bs bid)) recs m).2
        = (recs.filter
            (fun rb => !(skipYelpApi m rb.1) && !(emptyFields rb.2))).map Prod.fst
      ∧ ∀ k, skipYelpApi (runYelpApi (fun bid => .http 401 (bs bid)) recs m).1 k
          = skipYelpApi m k) :=
  ⟨fun businesses => search_yelp_api_401 businesses,
   fun bs recs m => runYelpApi_all401 bs recs m⟩

/-! ### The Nominatim retry loops of fill-neighborhoods-free.py
(geocode_reverse_nominatim) and fill-neighborhoods-extracted.py
(geocode_forward_nominatim).

One request per loop iteration; the network is an oracle from attempt
index to response.  The ok payload is the overall Optional neighborhood
the success path returns (the extracted field, or None when the payload
had no usable address).  The result records the returned value, the
sleep durations in seconds in order, and the number of requests made. -/

inductive NominatimResp where
  | ok (neighborhood : Option Str)
  | httpErr (code : Nat)
  | exc

/-- The retry loop of geocode_reverse_nominatim in
fill-neighborhoods-free.py: on 429 or 503 sleep (attempt+1)*2 seconds
and retry (also after the last attempt); on 403 return None at once; on
another HTTP error or an exception sleep 1 second and retry unless this
was the last attempt, else return None; after the loop return None. -/
def geocodeLoopFree (resp : Nat → NominatimResp) (retries : Nat) :
    Nat → Nat → Option Str × List Nat × Nat
  | 0, _ => (none, [], 0)
  | fuel + 1, attempt =>
    match resp attempt with
    | .ok r => (r, [], 1)
    | .httpErr code =>
      if code = 429 ∨ code = 503 then
        let rec1 := geocodeLoopFree resp retries fuel (attempt + 1)
        (rec1.1, (attempt + 1) * 2 :: rec1.2.1, rec1.2.2 + 1)
      else if code = 403 then (none, [], 1)
      else if attempt < retries - 1 then
        let rec1 := geocodeLoopFree resp retries fuel (attempt + 1)
        (rec1.1, 1 :: rec1.2.1, rec1.2.2 + 1)
      else (none, [], 1)
    | .exc =>
      if attempt < retries - 1 then
        let rec1 := geocodeLoopFree resp retries fuel (attempt + 1)
        (rec1.1, 1 :: rec1.2.1, rec1.2.2 + 1)
      else (none, [], 1)

/-- geocode_reverse_nominatim with its default of 3 retries. -/
def geocode_reverse_nominatim (resp : Nat → NominatimResp) :
    Option Str × List Nat × Nat :=
  geocodeLoopFree resp 3 3 0

/-- The retry loop of geocode_forward_nominatim in
fill-neighborhoods-extracted.py: identical except that on 429 or 503 the
sleep happens only when another attempt remains; the last attempt
returns None without sleeping. -/
def geocodeLoopExtracted (resp : Nat → NominatimResp) (retries : Nat) :
    Nat → Nat → Option Str × List Nat × Nat
  | 0, _ => (none, [], 0)
  | fuel + 1, attempt =>
    match resp attempt with
    | .ok r => (r, [], 1)
    | .httpErr code =>
      if code = 429 ∨ code = 503 then
        if attempt < retries - 1 then
          let rec1 := geocodeLoopExtracted resp retries fuel (attempt + 1)
          (rec1.1, (attempt + 1) * 2 :: rec1.2.1, rec1.2.2 + 1)
        else (none, [], 1)
      else if code = 403 then (none, [], 1)
      else if attempt < retries - 1 then
        let rec1 := geocodeLoopExtracted resp retries fuel (attempt + 1)
        (rec1.1, 1 :: rec1.2.1, rec1.2.2 + 1)
      else (none, [], 1)
    | .exc =>
      if attempt < retries - 1 then
        let rec1 := geocodeLoopExtracted resp retries fuel (attempt + 1)
        (rec1.1, 1 :: rec1.2.1, rec1.2.2 + 1)
      else (none, [], 1)

/-- geocode_forward_nominatim with its default of 3 retries. -/
def geocode_forward_nominatim (resp : Nat → NominatimResp) :
    Option Str × List Nat × Nat :=
  geocodeLoopExtracted resp 3 3 0

theorem geocodeLoopFree_attempts_le (resp : Nat → NominatimResp)
    (retries : Nat) :
    ∀ (fuel attempt : Nat),
      (geocodeLoopFree resp retries fuel attempt).2.2 ≤ fuel := by
  intro fuel
  induction fuel with
  | zero => intro attempt; simp [geocodeLoopFree]
  | succ fuel ih =>
    intro attempt
    rw [geocodeLoopFree]
    cases resp attempt with
    | ok r => simp
    | httpErr code =>
      by_cases h1 : code = 429 ∨ code = 503
      · simp only [if_pos h1]
        have := ih (attempt + 1)
        show (geocodeLoopFree resp retries fuel (attempt + 1)).2.2 + 1 ≤ fuel + 1
        omega
      · simp only [if_neg h1]
        by_cases h2 : code = 403
        · simp [h2]
        · simp only [if_neg h2]
          by_cases h3 : attempt < retries - 1
          · simp only [if_pos h3]
            have := ih (attempt + 1)
            show (geocodeLoopFree resp retries fuel (attempt + 1)).2.2 + 1 ≤ fuel + 1
            omega
          · simp [h3]
    | exc =>
      by_cases h3 : attempt < retries - 1
      · simp only [if_pos h3]
        have := ih (attempt + 1)
        show (geocodeLoopFree resp retries fuel (attempt + 1)).2.2 + 1 ≤ fuel + 1
        omega
      · simp [h3]

theorem geocodeLoopExtracted_attempts_le (resp : Nat → NominatimResp)
    (retries : Nat) :
    ∀ (fuel attempt : Nat),
      (geocodeLoopExtracted resp retries fuel attempt).2.2 ≤ fuel := by
  intro fuel
  induction fuel with
  | zero => intro attempt; simp [geocodeLoopExtracted]
  | succ fuel ih =>
    intro attempt
    rw [geocodeLoopExtracted]
    cases resp attempt with
    | ok r => simp
    | httpErr code =>
      by_cases h1 : code = 429 ∨ code = 503
      · simp only [if_pos h1]
        by_cases h3 : attempt < retries - 1
        · simp only [if_pos h3]
          have := ih (attempt + 1)
          show (geocodeLoopExtracted resp retries fuel (attempt + 1)).2.2 + 1 ≤ fuel + 1
          omega
        · simp [h3]
      · simp only [if_neg h1]
        by_cases h2 : code = 403
        · simp [h2]
        · simp only [if_neg h2]
          by_cases h3 : attempt < retries - 1
          · simp only [if_pos h3]
            have := ih (attempt + 1)
            show (geocodeLoopExtracted resp retries fuel (attempt + 1)).2.2 + 1 ≤ fuel + 1
            omega
          · simp [h3]
    | exc =>
      by_cases h3 : attempt < retries - 1
      · simp only [if_pos h3]
        have := ih (attempt + 1)
        show (geocodeLoopExtracted resp retries fuel (attempt + 1)).2.2 + 1 ≤ fuel + 1
        omega
      · simp [h3]

/-- C5: on rate limiting the Nominatim lookups retry with waits equal to
2 seconds times the attempt number, make at most 3 requests in total,
and after exhausting retries return None rather than raising: with every
response an HTTP 429, the reverse lookup of fill-neighborhoods-free.py
returns None after 3 requests with waits 2, 4, 6, the forward lookup of
fill-neighborhoods-extracted.py returns None after 3 requests with waits
2, 4 (no sleep after its final attempt), and for every oracle at most 3
requests are made. -/
theorem C5_rate_limit_backoff :
    (∀ resp : Nat → NominatimResp, (∀ i, resp i = .httpErr 429) →
      geocode_reverse_nominatim resp = (none, [2, 4, 6], 3)) ∧
    (∀ resp : Nat → NominatimResp, (∀ i, resp i = .httpErr 429) →
      geocode_forward_nominatim resp = (none, [2, 4], 3)) ∧
    (∀ resp : Nat → NominatimResp,
      (geocode_reverse_nominatim resp).2.2 ≤ 3 ∧
      (geocode_forward_nominatim resp).2.2 ≤ 3) := by
  refine ⟨?_, ?_, ?_⟩
  · intro resp h
    have : resp = fun _ => .httpErr 429 := funext h
    subst this
    decide
  · intro resp h
    have : resp = fun _ => .httpErr 429 := funext h
    subst this
    decide
  · intro resp
    exact ⟨geocodeLoopFree_attempts_le resp 3 3 0,
           geocodeLoopExtracted_attempts_le resp 3 3 0⟩

theorem C5_rate_limit_backoff_witness :
    geocode_reverse_nominatim (fun _ => .httpErr 429) = (none, [2, 4, 6], 3) ∧
    geocode_forward_nominatim (fun _ => .httpErr 429) = (none, [2, 4], 3) :=
  ⟨C5_rate_limit_backoff.1 (fun _ => .httpErr 429) (fun _ => rfl),
   C5_rate_limit_backoff.2.1 (fun _ => .httpErr 429) (fun _ => rfl)⟩

/-! ### The tiered neighborhood resolution of fill-neighborhoods-free.py
(get_neighborhood with three tiers) and fill-neighborhoods.py
(get_neighborhood with two tiers).

Coordinates are optional rationals; Python truthiness makes a missing,
None or zero value falsy.  The two network tiers are oracles; the string
parsing tier is the pure function parse_neighborhood_from_address
embedded below.  Results carry the list of tiers actually invoked. -/

/-- Splitting on commas, modelling Python str.split(",") with empty
parts kept. -/
def splitComma : Str → List Str
  | [] => [[]]
  | c :: rest =>
    if c = ',' then [] :: splitComma rest
    else
      match splitComma rest with
      | [] => [[c]]
      | t :: ts => (c :: t) :: ts

/-- Boolean occurrence test matching the Occurs predicate, modelling the
Python in operator on strings. -/
def occursB (t : Str) : Str → Bool
  | [] => t.isEmpty
  | c :: rest => isPrefixL t (c :: rest) || occursB t rest

/-- Uppercase basic latin letter, modelling the ASCII case of Python
str.isupper on one character. -/
def isUpperAZ (c : Char) : Bool := 65 ≤ c.toNat && c.toNat ≤ 90

/-- ASCII digit. -/
def isDigitC (c : Char) : Bool := 48 ≤ c.toNat && c.toNat ≤ 57

/-- ASCII letter, modelling Python str.isalpha on the ASCII range. -/
def isAlphaC (c : Char) : Bool :=
  (65 ≤ c.toNat && c.toNat ≤ 90) || (97 ≤ c.toNat && c.toNat ≤ 122)

/-- The regex ^[A-Z]{2}$ of parse_neighborhood_from_address. -/
def matchStateAbbrev (p : Str) : Bool := p.length = 2 && p.all isUpperAZ

/-- The regex ^\d{5} of parse_neighborhood_from_address: the first five
characters are digits. -/
def matchZip (p : Str) : Bool := 5 ≤ p.length && (p.take 5).all isDigitC

/-- The neighborhood indicator words of fill-neighborhoods-free.py. -/
def neighborhoodIndicators : List Str :=
  ["Heights".toList, "Park".toList, "Square".toList, "Village".toList,
   "Hills".toList, "Beach".toList, "Bay".toList, "North".toList,
   "South".toList, "East".toList, "West".toList, "Central".toList]

/-- parse_neighborhood_from_address of fill-neighborhoods-free.py: strip
a trailing USA marker, split on commas, and accept the second part when
it is not a state abbreviation, ZIP prefix or the city itself, is a
short capitalized phrase, and either contains an indicator word or is a
single alphabetic token. -/
def parse_neighborhood_from_address (address : Str) (city : Str) : Option Str :=
  if address.isEmpty then none
  else
    let addressClean := pyStrip (pyReplace ", USA".toList [] address)
    let parts := (splitComma addressClean).map pyStrip
    if 3 ≤ parts.length then
      let potential := parts.getD 1 []
      if potential.isEmpty then none
      else if matchStateAbbrev potential || matchZip potential then none
      else if !city.isEmpty && decide (pyLower potential = pyLower city) then none
      else if (pySplit potential).length ≤ 3 && isUpperAZ (potential.headD 'a') then
        if neighborhoodIndicators.any (fun ind => occursB ind potential) then
          some potential
        else if (pySplit potential).length = 1 && potential.all isAlphaC then
          some potential
        else none
      else none
    else none

structure GeoLoc where
  lat : Option Rat
  lng : Option Rat

structure GeoEntry where
  location : Option GeoLoc
  address : Str
  city : Str

/-- Python truthiness of an optional numeric coordinate: false when the
key is missing or None and when the value is zero. -/
def truthyCoord : Option Rat → Bool
  | none => false
  | some q => decide (q ≠ 0)

/-- The three resolution tiers. -/
inductive Tier where
  | revGeo
  | fwdGeo
  | parseAddr
deriving DecidableEq

/-- Methods 2 and 3 of get_neighborhood in fill-neighborhoods-free.py:
forward geocoding by address, then string parsing, each only when the
address is truthy and the previous step yielded nothing. -/
def neighborhoodMethod2Free (e : GeoEntry) (fwd : Str → Option Str)
    (tiers : List Tier) : Option Str × List Tier :=
  if e.address.isEmpty then (none, tiers)
  else
    match fwd e.address with
    | some nb => (some nb, tiers ++ [Tier.fwdGeo])
    | none =>
      match parse_neighborhood_from_address e.address e.city with
      | some nb => (some nb, tiers ++ [Tier.fwdGeo, Tier.parseAddr])
      | none => (none, tiers ++ [Tier.fwdGeo, Tier.parseAddr])

/-- get_neighborhood of fill-neighborhoods-free.py: reverse geocoding by
coordinates when both are truthy, then the address-based methods. -/
def get_neighborhood_free (e : GeoEntry) (rev : Rat → Rat → Option Str)
    (fwd : Str → Option Str) : Option Str × List Tier :=
  match e.location with
  | some loc =>
    if truthyCoord loc.lat && truthyCoord loc.lng then
      match rev (loc.lat.getD 0) (loc.lng.getD 0) with
      | some nb => (some nb, [Tier.revGeo])
      | none => neighborhoodMethod2Free e fwd [Tier.revGeo]
    else neighborhoodMethod2Free e fwd []
  | none => neighborhoodMethod2Free e fwd []

/-- The address fallback of get_neighborhood in fill-neighborhoods.py:
forward geocoding only, when the address is truthy. -/
def neighborhoodMethod2Plain (e : GeoEntry) (fwd : Str → Option Str)
    (tiers : List Tier) : Option Str × List Tier :=
  if e.address.isEmpty then (none, tiers)
  else (fwd e.address, tiers ++ [Tier.fwdGeo])

/-- get_neighborhood of fill-neighborhoods.py: reverse geocoding by
coordinates when both are truthy, then forward geocoding by address. -/
def get_neighborhood_plain (e : GeoEntry) (rev : Rat → Rat → Option Str)
    (fwd : Str → Option Str) : Option Str × List Tier :=
  match e.location with
  | some loc =>
    if truthyCoord loc.lat && truthyCoord loc.lng then
      match rev (loc.lat.getD 0) (loc.lng.getD 0) with
      | some nb => (some nb, [Tier.revGeo])
      | none => neighborhoodMethod2Plain e fwd [Tier.revGeo]
    else neighborhoodMethod2Plain e fwd []
  | none => neighborhoodMethod2Plain e fwd []

theorem method2Free_parse_mem (e : GeoEntry) (fwd : Str → Option Str)
    (tiers0 : List Tier) (hnp : Tier.parseAddr ∉ tiers0) :
    Tier.parseAddr ∈ (neighborhoodMethod2Free e fwd tiers0).2 →
    Tier.fwdGeo ∈ (neighborhoodMethod2Free e fwd tiers0).2 ∧
      fwd e.address = none := by
  unfold neighborhoodMethod2Free
  by_cases ha : e.address.isEmpty
  · rw [if_pos ha]
    intro hmem
    exact absurd hmem hnp
  · rw [if_neg ha]
    cases hf : fwd e.address with
    | some nb =>
      intro hmem
      simp only [List.mem_append] at hmem
      rcases hmem with h1 | h1
      · exact absurd h1 hnp
      · simp at h1
    | none =>
      intro _
      cases parse_neighborhood_from_address e.address e.city with
      | some nb =>
        refine ⟨?_, rfl⟩
        simp
      | none =>
        refine ⟨?_, rfl⟩
        simp

theorem method2Free_no_rev (e : GeoEntry) (fwd : Str → Option Str) :
    Tier.revGeo ∉ (neighborhoodMethod2Free e fwd []).2 := by
  unfold neighborhoodMethod2Free
  by_cases ha : e.address.isEmpty
  · rw [if_pos ha]
    simp
  · rw [if_neg ha]
    cases fwd e.address with
    | some nb => simp
    | none =>
      cases parse_neighborhood_from_address e.address e.city with
      | some nb => simp
      | none => simp

theorem method2Free_fwd_mem (e : GeoEntry) (fwd : Str → Option Str)
    (tiers0 : List Tier) (ha : e.address.isEmpty = false) :
    Tier.fwdGeo ∈ (neighborhoodMethod2Free e fwd tiers0).2 := by
  unfold neighborhoodMethod2Free
  rw [if_neg (by simp [ha])]
  cases fwd e.address with
  | some nb => simp
  | none =>
    cases parse_neighborhood_from_address e.address e.city with
    | some nb => simp
    | none => simp

theorem method2Plain_no_rev (e : GeoEntry) (fwd : Str → Option Str) :
    Tier.revGeo ∉ (neighborhoodMethod2Plain e fwd []).2 := by
  unfold neighborhoodMethod2Plain
  by_cases ha : e.address.isEmpty
  · rw [if_pos ha]
    simp
  · rw [if_neg ha]
    simp

theorem method2Plain_fwd_mem (e : GeoEntry) (fwd : Str → Option Str)
    (tiers0 : List Tier) (ha : e.address.isEmpty = false) :
    Tier.fwdGeo ∈ (neighborhoodMethod2Plain e fwd tiers0).2 := by
  unfold neighborhoodMethod2Plain
  rw [if_neg (by simp [ha])]
  simp

theorem get_neighborhood_free_some {e : GeoEntry} {loc : GeoLoc}
    (he : e.location = some loc) (rev : Rat → Rat → Option Str)
    (fwd : Str → Option Str) :
    get_neighborhood_free e rev fwd =
      if truthyCoord loc.lat && truthyCoord loc.lng then
        match rev (loc.lat.getD 0) (loc.lng.getD 0) with
        | some nb => (some nb, [Tier.revGeo])
        | none => neighborhoodMethod2Free e fwd [Tier.revGeo]
      else neighborhoodMethod2Free e fwd [] := by
  unfold get_neighborhood_free
  rw [he]

theorem get_neighborhood_free_none {e : GeoEntry} (he : e.location = none)
    (rev : Rat → Rat → Option Str) (fwd : Str → Option Str) :
    get_neighborhood_free e rev fwd = neighborhoodMethod2Free e fwd [] := by
  unfold get_neighborhood_free
  rw [he]

theorem get_neighborhood_plain_some {e : GeoEntry} {loc : GeoLoc}
    (he : e.location = some loc) (rev : Rat → Rat → Option Str)
    (fwd : Str → Option Str) :
    get_neighborhood_plain e rev fwd =
      if truthyCoord loc.lat && truthyCoord loc.lng then
        match rev (loc.lat.getD 0) (loc.lng.getD 0) with
        | some nb => (some nb, [Tier.revGeo])
        | none => neighborhoodMethod2Plain e fwd [Tier.revGeo]
      else neighborhoodMethod2Plain e fwd [] := by
  unfold get_neighborhood_plain
  rw [he]

/-- C6: in get_neighborhood of fill-neighborhoods-free.py, when the
coordinates are present and truthy and the reverse tier returns a
neighborhood, the result is that neighborhood with only the reverse tier
invoked; the forward tier runs only when the reverse tier was skipped or
returned nothing, and the parse tier runs only when the forward tier ran
and returned nothing. -/
theorem C6_tier_short_circuit :
    (∀ (e : GeoEntry) (rev : Rat → Rat → Option Str) (fwd : Str → Option Str)
        (loc : GeoLoc) (nb : Str),
      e.location = some loc →
      truthyCoord loc.lat = true → truthyCoord loc.lng = true →
      rev (loc.lat.getD 0) (loc.lng.getD 0) = some nb →
      get_neighborhood_free e rev fwd = (some nb, [Tier.revGeo])) ∧
    (∀ (e : GeoEntry) (rev : Rat → Rat → Option Str) (fwd : Str → Option Str),
      (Tier.fwdGeo ∈ (get_neighborhood_free e rev fwd).2 →
        ∀ loc, e.location = some loc →
          truthyCoord loc.lat = true → truthyCoord loc.lng = true →
          rev (loc.lat.getD 0) (loc.lng.getD 0) = none) ∧
      (Tier.parseAddr ∈ (get_neighborhood_free e rev fwd).2 →
        Tier.fwdGeo ∈ (get_neighborhood_free e rev fwd).2 ∧
          fwd e.address = none)) := by
  constructor
  · intro e rev fwd loc nb he hlat hlng hrev
    rw [get_neighborhood_free_some he]
    rw [if_pos (by simp [hlat, hlng])]
    rw [hrev]
  · intro e rev fwd
    cases he : e.location with
    | none =>
      rw [get_neighborhood_free_none he]
      constructor
      · intro _ loc hloc
        simp at hloc
      · exact method2Free_parse_mem e fwd [] (by simp)
    | some loc =>
      rw [get_neighborhood_free_some he]
      by_cases htr : (truthyCoord loc.lat && truthyCoord loc.lng) = true
      · rw [if_pos htr]
        cases hrev : rev (loc.lat.getD 0) (loc.lng.getD 0) with
        | some nb =>
          constructor
          · intro hmem
            simp at hmem
          · intro hmem
            simp at hmem
        | none =>
          constructor
          · intro _ loc2 hloc2
            injection hloc2 with hl
            subst hl
            intro _ _
            exact hrev
          · exact method2Free_parse_mem e fwd [Tier.revGeo] (by simp)
      · rw [if_neg htr]
        constructor
        · intro _ loc2 hloc2 hlat hlng
          injection hloc2 with hl
          subst hl
          rw [hlat, hlng] at htr
          simp at htr
        · exact method2Free_parse_mem e fwd [] (by simp)

theorem C6_tier_short_circuit_witness :
    get_neighborhood_free
      ⟨some ⟨some 1, some 1⟩, "12 Main St, SoHo, New York".toList, "New York".toList⟩
      (fun _ _ => some "SoHo".toList) (fun _ => none)
      = (some "SoHo".toList, [Tier.revGeo]) :=
  C6_tier_short_circuit.1
    ⟨some ⟨some 1, some 1⟩, "12 Main St, SoHo, New York".toList, "New York".toList⟩
    (fun _ _ => some "SoHo".toList) (fun _ => none)
    ⟨some 1, some 1⟩ "SoHo".toList rfl (by decide) (by decide) rfl

/-- C10: when the location is present but latitude or longitude is
missing, None or zero, both get_neighborhood variants skip the reverse
tier entirely (truthiness, not key presence, is tested) and, when the
address is truthy, fall through directly to the forward tier. -/
theorem C10_falsy_coordinates_skip_reverse :
    (truthyCoord (some 0) = false ∧ truthyCoord none = false) ∧
    (∀ (e : GeoEntry) (rev : Rat → Rat → Option Str) (fwd : Str → Option Str)
        (loc : GeoLoc),
      e.location = some loc →
      truthyCoord loc.lat = false ∨ truthyCoord loc.lng = false →
      (Tier.revGeo ∉ (get_neighborhood_free e rev fwd).2 ∧
       (e.address.isEmpty = false →
         Tier.fwdGeo ∈ (get_neighborhood_free e rev fwd).2) ∧
       Tier.revGeo ∉ (get_neighborhood_plain e rev fwd).2 ∧
       (e.address.isEmpty = false →
         Tier.fwdGeo ∈ (get_neighborhood_plain e rev fwd).2))) := by
  constructor
  · constructor
    · decide
    · rfl
  · intro e rev fwd loc he hfalse
    have htr : (truthyCoord loc.lat && truthyCoord loc.lng) = false := by
      rcases hfalse with h | h <;> simp [h]
    rw [get_neighborhood_free_some he, get_neighborhood_plain_some he]
    rw [if_neg (by simp [htr]), if_neg (by simp [htr])]
    exact ⟨method2Free_no_rev e fwd,
           fun ha => method2Free_fwd_mem e fwd [] ha,
           method2Plain_no_rev e fwd,
           fun ha => method2Plain_fwd_mem e fwd [] ha⟩

theorem C10_falsy_coordinates_skip_reverse_witness :
    Tier.revGeo ∉ (get_neighborhood_free
      ⟨some ⟨some 0, some 5⟩, "12 Main St, SoHo, New York".toList, "New York".toList⟩
      (fun _ _ => some "SoHo".toList) (fun _ => some "Chelsea".toList)).2 ∧
    (("12 Main St, SoHo, New York".toList : Str).isEmpty = false →
      Tier.fwdGeo ∈ (get_neighborhood_free
        ⟨some ⟨some 0, some 5⟩, "12 Main St, SoHo, New York".toList, "New York".toList⟩
        (fun _ _ => some "SoHo".toList) (fun _ => some "Chelsea".toList)).2) ∧
    Tier.revGeo ∉ (get_neighborhood_plain
      ⟨some ⟨some 0, some 5⟩, "12 Main St, SoHo, New York".toList, "New York".toList⟩
      (fun _ _ => some "SoHo".toList) (fun _ => some "Chelsea".toList)).2 ∧
    (("12 Main St, SoHo, New York".toList : Str).isEmpty = false →
      Tier.fwdGeo ∈ (get_neighborhood_plain
        ⟨some ⟨some 0, some 5⟩, "12 Main St, SoHo, New York".toList, "New York".toList⟩
        (fun _ _ => some "SoHo".toList) (fun _ => some "Chelsea".toList)).2) :=
  C10_falsy_coordinates_skip_reverse.2
    ⟨some ⟨some 0, some 5⟩, "12 Main St, SoHo, New York".toList, "New York".toList⟩
    (fun _ _ => some "SoHo".toList) (fun _ => some "Chelsea".toList)
    ⟨some 0, some 5⟩ rfl (Or.inl (by decide))

/-! ### The repair module repair-json-advanced.py.

The file operations the module performs are modelled as a trace.  The
json.loads outcomes are oracle booleans: parseOk for the initial parse,
cutFound for the backward cut-point search succeeding, altOk for the
line-oriented fallback repair parsing, verifyOk for the re-parse of the
written output.  The control flow of repair_json_advanced performs no
other reads or writes; in particular it never writes a backup file. -/

inductive FileOp where
  | read (p : Str)
  | write (p : Str)
deriving DecidableEq

/-- repair_json_advanced of repair-json-advanced.py: read the input; if
it parses, succeed with no write; otherwise repair (cut-point search,
then the line-oriented fallback); when a repaired payload exists, write
it to the output path and verify by re-reading; otherwise fail with no
write. -/
def repair_json_advanced (parseOk cutFound altOk verifyOk : Bool)
    (input output : Str) : Bool × List FileOp :=
  if parseOk then (true, [FileOp.read input])
  else if cutFound then
    (verifyOk, [FileOp.read input, FileOp.write output, FileOp.read output])
  else if altOk then
    (verifyOk, [FileOp.read input, FileOp.write output, FileOp.read output])
  else (false, [FileOp.read input])

/-- The default output path of the repair module command line:
input_file.replace with the _repaired suffix. -/
def repairDefaultOutput (input : Str) : Str :=
  pyReplace ".json".toList "_repaired.json".toList input

/-- C8 counterexample: invoking the repair module with the output path
equal to the input path, on a repairable corrupt snapshot, overwrites
the original as the one and only write of the run: no backup of any
path is written before (or after) the overwrite. -/
theorem C8_counterexample :
    (repair_json_advanced false true false true "f.json".toList "f.json".toList).2
      = [FileOp.read "f.json".toList, FileOp.write "f.json".toList,
         FileOp.read "f.json".toList] := by
  decide

/-- C8 (amended): the repair module never writes a backup: every write
of any invocation goes to the chosen output path and a successful
initial parse writes nothing; the original is protected only by the
default output path carrying the _repaired suffix, and a caller passing
the input path as output overwrites the original without backup. -/
theorem C8_no_backup_in_repair :
    (∀ (parseOk cutFound altOk verifyOk : Bool) (input output : Str) (p : Str),
      FileOp.write p ∈
        (repair_json_advanced parseOk cutFound altOk verifyOk input output).2 →
      p = output) ∧
    (∀ (verifyOk : Bool) (input output : Str) (p : Str),
      FileOp.write p ∉ (repair_json_advanced true false false verifyOk input output).2) ∧
    repairDefaultOutput "allcities.json".toList = "allcities_repaired.json".toList := by
  refine ⟨?_, ?_, ?_⟩
  · intro pk cf ak vk input output p hp
    unfold repair_json_advanced at hp
    by_cases h1 : pk = true
    · rw [if_pos h1] at hp
      simp at hp
    · rw [if_neg h1] at hp
      by_cases h2 : cf = true
      · rw [if_pos h2] at hp
        simp at hp
        exact hp
      · rw [if_neg h2] at hp
        by_cases h3 : ak = true
        · rw [if_pos h3] at hp
          simp at hp
          exact hp
        · rw [if_neg h3] at hp
          simp at hp
  · intro vk input output p hp
    unfold repair_json_advanced at hp
    rw [if_pos rfl] at hp
    simp at hp
  · unfold repairDefaultOutput
    simp [pyReplace, isPrefixL]

/-! ### The menu URL enrichment of enrich-menu-url-unwrangle.py.

clean_yelp_url strips the query component from the Yelp business URL
used to query the Unwrangle API; update_record_menu_url writes the
menu_url value obtained from the API into details.attributes.menu_url of
the matched yelp slot, creating the nested objects when absent. -/

structure YelpAttrs where
  menu_url : Option Str

structure YelpDetails where
  attributes : Option YelpAttrs

structure YelpSlotData where
  url : Str
  details : Option YelpDetails

structure EnrichRecord where
  yelp : Option YelpSlotData

/-- The enrichment mapping file, keyed by buffet id. -/
def EnrichMap := Str → Option EnrichRecord

/-- clean_yelp_url: None for a falsy URL, else the part before the first
question mark (split on the question mark, first piece). -/
def clean_yelp_url (url : Str) : Option Str :=
  if url.isEmpty then none
  else some (url.takeWhile (fun c => c ≠ '?'))

/-- The attributes object update_record_menu_url writes: the existing
attributes (or a fresh object) with menu_url set to the given value. -/
def menuAttrs (y : YelpSlotData) (menu : Str) : YelpAttrs :=
  { ((y.details.getD ⟨none⟩).attributes.getD ⟨none⟩) with menu_url := some menu }

/-- The details object update_record_menu_url writes. -/
def menuDetails (y : YelpSlotData) (menu : Str) : YelpDetails :=
  { (y.details.getD ⟨none⟩) with attributes := some (menuAttrs y menu) }

/-- The yelp slot after update_record_menu_url wrote the menu URL. -/
def menuSlot (y : YelpSlotData) (menu : Str) : YelpSlotData :=
  { y with details := some (menuDetails y menu) }

/-- update_record_menu_url: locate the record and its yelp slot, create
the details and attributes objects when missing, and set menu_url to the
given value; report whether an update happened. -/
def update_record_menu_url (data : EnrichMap) (bid : Str) (menu : Str) :
    Bool × EnrichMap :=
  match data bid with
  | none => (false, data)
  | some rec0 =>
    match rec0.yelp with
    | none => (false, data)
    | some y =>
      (true, fun k =>
        if k = bid then some { rec0 with yelp := some (menuSlot y menu) }
        else data k)

/-- The persisted details.attributes.menu_url value of a record. -/
def storedMenuUrl (data : EnrichMap) (bid : Str) : Option Str :=
  match data bid with
  | none => none
  | some rec0 =>
    match rec0.yelp with
    | none => none
    | some y =>
      match y.details with
      | none => none
      | some d =>
        match d.attributes with
        | none => none
        | some a => a.menu_url

theorem update_record_menu_url_eq_some {data : EnrichMap} {bid : Str}
    {rec0 : EnrichRecord} {y : YelpSlotData} (hd : data bid = some rec0)
    (hy : rec0.yelp = some y) (menu : Str) :
    update_record_menu_url data bid menu =
      (true, fun k =>
        if k = bid then some { rec0 with yelp := some (menuSlot y menu) }
        else data k) := by
  unfold update_record_menu_url
  rw [hd]
  show (match rec0.yelp with
      | none => ((false : Bool), data)
      | some y => (true, fun k =>
          if k = bid then some { rec0 with yelp := some (menuSlot y menu) }
          else data k)) = _
  rw [hy]

/-- A one-record mapping whose yelp slot has no details object yet. -/
def enrichCexMap : EnrichMap :=
  fun k => if k = "b1".toList then
    some ⟨some ⟨"https://www.yelp.com/biz/x".toList, none⟩⟩ else none

/-- The menu URL the API returned for the counterexample record, with a
query component. -/
def menuWithQuery : Str := "https://example.com/menu?ref=yelp".toList

/-- C9 counterexample: update_record_menu_url persists the API-returned
menu_url verbatim, so a menu URL containing a query component is stored
with its question mark intact. -/
theorem C9_counterexample :
    storedMenuUrl
      (update_record_menu_url enrichCexMap "b1".toList menuWithQuery).2
      "b1".toList = some menuWithQuery ∧
    '?' ∈ menuWithQuery := by
  decide

/-- C9 (amended): clean_yelp_url strips every query component, and it is
applied to the Yelp business URL used to query the enrichment API; the
menu_url fetched from the API is stored into details.attributes.menu_url
verbatim and may therefore contain a query component. -/
theorem C9_menu_url_stored_verbatim :
    (∀ (url out : Str), clean_yelp_url url = some out → '?' ∉ out) ∧
    (∀ (data : EnrichMap) (bid menu : Str),
      (update_record_menu_url data bid menu).1 = true →
      storedMenuUrl (update_record_menu_url data bid menu).2 bid = some menu) := by
  constructor
  · intro url out hclean hmem
    unfold clean_yelp_url at hclean
    by_cases hu : url.isEmpty
    · rw [if_pos hu] at hclean
      simp at hclean
    · rw [if_neg hu] at hclean
      simp only [Option.some.injEq] at hclean
      subst hclean
      have := List.mem_takeWhile_imp hmem
      simp at this
  · intro data bid menu hupd
    cases hd : data bid with
    | none =>
      unfold update_record_menu_url at hupd
      rw [hd] at hupd
      simp at hupd
    | some rec0 =>
      cases hy : rec0.yelp with
      | none =>
        unfold update_record_menu_url at hupd
        rw [hd] at hupd
        have hupd2 : (match rec0.yelp with
            | none => ((false : Bool), data)
            | some y => (true, fun k =>
                if k = bid then some { rec0 with yelp := some (menuSlot y menu) }
                else data k)).1 = true := hupd
        rw [hy] at hupd2
        simp at hupd2
      | some y =>
        rw [update_record_menu_url_eq_some hd hy menu]
        simp [storedMenuUrl, menuSlot, menuDetails, menuAttrs]

theorem C9_menu_url_stored_verbatim_witness :
    ('?' ∉ ("https://www.yelp.com/biz/x".toList : Str)) ∧
    storedMenuUrl
      (update_record_menu_url enrichCexMap "b1".toList "menu-page".toList).2
      "b1".toList = some "menu-page".toList :=
  ⟨C9_menu_url_stored_verbatim.1
      "https://www.yelp.com/biz/x?osq=buffet".toList
      "https://www.yelp.com/biz/x".toList (by decide),
   C9_menu_url_stored_verbatim.2 enrichCexMap "b1".toList "menu-page".toList
     (by decide)⟩

theorem C8_no_backup_in_repair_witness :
    ("out.json".toList : Str) = "out.json".toList ∧
    FileOp.write "b.json".toList ∉
      (repair_json_advanced true false false true
        "a.json".toList "out.json".toList).2 :=
  ⟨C8_no_backup_in_repair.1 false true false true "a.json".toList
      "out.json".toList "out.json".toList (by decide),
   C8_no_backup_in_repair.2.1 true "a.json".toList "out.json".toList
      "b.json".toList⟩
